import Mathlib

/-!
# Verification of the PDF extraction-and-normalization core (`pdf_processor.py`)

This file embeds, as executable Lean definitions over `List Char`, the two
functions of `src/pdf_processor.py` that the specification covers:

* `clean_text_for_api` — the text sanitizer (Unicode replacement table,
  box-drawing removal, printable-ASCII filtering, and the three final
  whitespace-normalizing regular-expression substitutions, embedded with
  Python `re.sub` scanning semantics);
* `extract_text_from_pdf` — the per-page multi-strategy extraction pipeline
  (digital text, tables, OCR fallback) and document-level assembly.

Python strings are embedded as `List Char`; the I/O behaviour of the PDF
library, the OCR engine, and the operating-system timeout machinery is
abstracted into per-page "behaviour" records that record the outcome of each
call (the value returned, a timeout, or a raised exception), exactly the
outcomes the source distinguishes.  Unicode NFKD normalization
(`unicodedata.normalize`) is kept as an explicit function parameter `nfkd`;
facts about it that a theorem needs (it fixes ASCII-only strings) appear as
hypotheses.

The `Validation` component described by the specification does not occur in
`src/`; it is modelled from the specification's words (clearly marked below).
-/

/-- Python strings are embedded as lists of characters. -/
abbrev Str := List Char

/-- Shorthand to write a concrete embedded string. -/
def str (s : String) : Str := s.data

/-- The whitespace set of Python's `str.strip()` / `str.isspace()`:
ASCII whitespace and control separators plus the Unicode space characters. -/
def isPyStripWs (c : Char) : Bool :=
  (9 ≤ c.toNat && c.toNat ≤ 13) || (28 ≤ c.toNat && c.toNat ≤ 31) ||
  c.toNat = 32 || c.toNat = 0x85 || c.toNat = 0xa0 || c.toNat = 0x1680 ||
  (0x2000 ≤ c.toNat && c.toNat ≤ 0x200a) || c.toNat = 0x2028 ||
  c.toNat = 0x2029 || c.toNat = 0x202f || c.toNat = 0x205f || c.toNat = 0x3000

/-- Python `str.strip()`: remove leading and trailing whitespace. -/
def pyStrip (l : Str) : Str :=
  ((l.dropWhile isPyStripWs).reverse.dropWhile isPyStripWs).reverse

/-- The character class of the regex `\s` (Python `re`, Unicode mode).  The
three `re.sub` passes of `clean_text_for_api` run after the string has been
reduced to ASCII, where `\s` coincides with Python's string whitespace. -/
def isWs (c : Char) : Bool := isPyStripWs c

/-- Membership in Python's `string.printable`: digits, letters, punctuation
(that is, the printable ASCII range 0x20–0x7E) plus `\t\n\v\f\r`. -/
def pythonPrintable (c : Char) : Bool :=
  (32 ≤ c.toNat && c.toNat ≤ 126) || (9 ≤ c.toNat && c.toNat ≤ 13)

/-- The replacement table of `clean_text_for_api` (`replacements` dict,
`src/pdf_processor.py` lines 34–95), in source order.  The source applies the
entries by successive `str.replace` calls; since every key is a single
character and no replacement value contains any key, that is the same as this
single character-wise pass. -/
def replaceChar (c : Char) : Str :=
  -- Quotes and punctuation
  if c = '’' then str "'"
  else if c = '‘' then str "'"
  else if c = '“' then str "\""
  else if c = '”' then str "\""
  else if c = '–' then str "-"
  else if c = '—' then str "--"
  else if c = '…' then str "..."
  -- Mathematical and scientific
  else if c = '°' then str " degrees"
  else if c = '½' then str "1/2"
  else if c = '¼' then str "1/4"
  else if c = '¾' then str "3/4"
  else if c = '²' then str "^2"
  else if c = '³' then str "^3"
  else if c = '•' then str "*"
  else if c = '×' then str "x"
  else if c = '÷' then str "/"
  else if c = 'μ' then str "micro"
  else if c = '±' then str "+/-"
  else if c = '≥' then str ">="
  else if c = '≤' then str "<="
  else if c = '≠' then str "!="
  else if c = '≈' then str "~="
  else if c = '√' then str "sqrt"
  else if c = '∞' then str "infinity"
  else if c = 'π' then str "pi"
  else if c = 'α' then str "alpha"
  else if c = 'β' then str "beta"
  else if c = 'γ' then str "gamma"
  else if c = 'δ' then str "delta"
  else if c = 'Ω' then str "Omega"
  -- Symbols and marks
  else if c = '©' then str "(c)"
  else if c = '®' then str "(R)"
  else if c = '™' then str "(TM)"
  else if c = '§' then str "Section "
  else if c = '†' then str "+"
  else if c = '‡' then str "++"
  else if c = '¶' then str "[P]"
  else if c = '‰' then str " per thousand"
  else if c = 'º' then str " degrees"
  else if c = 'ª' then str "a"
  else if c = '′' then str "'"
  else if c = '″' then str "\""
  else if c = '‴' then str "'''"
  else if c = 'µ' then str "micro"
  -- Whitespace and separators
  else if c = ' ' then str " "
  else if c = '﻿' then []
  else if c = '​' then []
  else if c = '‌' then []
  else if c = '‍' then []
  else if c = ' ' then ['\n']
  else if c = ' ' then ['\n', '\n']
  else if c = '\t' then str " "
  else if c = '\r' then []
  else [c]

/-- The box-drawing characters removed by `clean_text_for_api`
(`box_chars`, line 102). -/
def isBoxChar (c : Char) : Bool :=
  c ∈ ['│', '├', '─', '└', '┘', '┌', '┐', '┤', '┬', '┴', '┼',
       '╭', '╮', '╯', '╰', '╱', '╲', '╳', '┇', '┆', '┊', '┋']

/-- `re.sub(r'[ \\t]+', ' ', text)` (line 117), as a single left-to-right
structural scan: each maximal run of spaces/tabs is replaced by one space
(`acc` records whether the current position is inside such a run, i.e. whether
the run's single output space has already been emitted). -/
def sub1Go (inRun : Bool) : Str → Str
  | [] => []
  | c :: cs =>
    if c = ' ' || c = '\t' then
      (if inRun then [] else [' ']) ++ sub1Go true cs
    else c :: sub1Go false cs

/-- `re.sub(r'[ \\t]+', ' ', text)` (line 117). -/
def sub1 (l : Str) : Str := sub1Go false l

/-- The effect of one `re.sub(r'\\n\\s*\\n\\s*\\n+', '\\n\\n', text)` match region
on a maximal whitespace run: the pattern can only match inside a maximal
whitespace run, it matches iff the run holds at least three newlines, and the
greedy leftmost match then runs from the run's first newline through its last
newline, replaced by exactly two newlines (whitespace before the first and
after the last newline is outside the match and survives). -/
def sub2Flush (r : Str) : Str :=
  if 3 ≤ r.count '\n' then
    r.takeWhile (fun d => d != '\n') ++ '\n' :: '\n' ::
      (r.reverse.takeWhile (fun d => d != '\n')).reverse
  else r

/-- Scanner for `re.sub(r'\\n\\s*\\n\\s*\\n+', '\\n\\n', text)` (line 118):
accumulate each maximal whitespace run in `acc` and flush it through
`sub2Flush`; non-whitespace characters pass through unchanged. -/
def sub2Go (acc : Str) : Str → Str
  | [] => sub2Flush acc
  | c :: cs =>
    if isWs c then sub2Go (acc ++ [c]) cs
    else sub2Flush acc ++ c :: sub2Go [] cs

/-- `re.sub(r'\\n\\s*\\n\\s*\\n+', '\\n\\n', text)` (line 118). -/
def sub2 (l : Str) : Str := sub2Go [] l

/-- Whether the character immediately preceding the last newline of `r` is
itself a newline (false also when `r` has no newline). -/
def lastNlPrevIsNl (r : Str) : Bool :=
  ((r.reverse.dropWhile (fun d => d != '\n')).drop 1).head? = some '\n'

/-- The effect of `re.sub(r'^\\s+|\\s+$', '', text, flags=re.MULTILINE)` on a
maximal whitespace run lying strictly between two non-whitespace characters
(runs touching the string start or end are removed whole, by `^\\s+` at
position 0 resp. `\\s+$` running to the end).  With Python semantics — `^`
matches after any newline, `$` before any newline, both judged against the
original string, matches scanned leftmost and greedily — such an interior run
comes out as: itself if it has no newline (nothing matches inside it); empty
if its last newline is directly preceded by another newline (`\\s+$` removes
up to the last newline, which `^\\s+` then swallows together with the rest);
a single newline otherwise (the last newline survives, the whitespace before
it is removed by `\\s+$`, that after it by `^\\s+`). -/
def sub3Interior (r : Str) : Str :=
  if r.count '\n' = 0 then r
  else if lastNlPrevIsNl r then []
  else ['\n']

/-- Scanner for `re.sub(r'^\\s+|\\s+$', '', text, flags=re.MULTILINE)`
(line 119): accumulate each maximal whitespace run; a run at the string start
(`first`) or at the string end (the final `acc`) is dropped, an interior run
is flushed through `sub3Interior`. -/
def sub3Go (first : Bool) (acc : Str) : Str → Str
  | [] => []
  | c :: cs =>
    if isWs c then sub3Go first (acc ++ [c]) cs
    else (if first then [] else sub3Interior acc) ++ c :: sub3Go false [] cs

/-- `re.sub(r'^\\s+|\\s+$', '', text, flags=re.MULTILINE)` (line 119). -/
def sub3 (l : Str) : Str := sub3Go true [] l

/-- `clean_text_for_api` after the NFKD normalization step: the replacement
table, box-drawing removal, `string.printable` filtering (non-members become
a space), control-character removal (keep code points ≥ 32 and `\n\r\t`),
ASCII re-encoding with `errors='ignore'` (drop code points ≥ 128), the three
whitespace substitutions, and the final `strip`. -/
def cleanAfterNFKD (t : Str) : Str :=
  let t1 := (t.map replaceChar).flatten
  let t2 := t1.filter (fun c => !isBoxChar c)
  let t3 := t2.map (fun c => if pythonPrintable c then c else ' ')
  let t4 := t3.filter (fun c => 32 ≤ c.toNat || c ∈ ['\n', '\r', '\t'])
  let t5 := t4.filter (fun c => c.toNat < 128)
  pyStrip (sub3 (sub2 (sub1 t5)))

/-- `clean_text_for_api(text)` (`src/pdf_processor.py` lines 17–121).  The
Unicode NFKD normalization is the explicit parameter `nfkd`; an empty (falsy)
input returns the empty string before normalization runs. -/
def clean_text_for_api (nfkd : Str → Str) (text : Str) : Str :=
  if text.isEmpty then [] else cleanAfterNFKD (nfkd text)

/-- Decimal rendering of a page/table index (Python string formatting). -/
def natStr (n : Nat) : Str := (Nat.repr n).data

/-- The 50-character separator line `'='*50` of a page header. -/
def sep50 : Str := List.replicate 50 '='

/-- The 60-character separator line `'='*60` of the document header. -/
def sep60 : Str := List.replicate 60 '='

/-- One newline, as a string. -/
def nlStr : Str := ['\n']

/-- Outcome of the digital-text step for one page (`page.extract_text(layout=False)`
under the 15-second alarm, lines 148–174): the call returned (pdfplumber may
return `None`), the alarm fired (`text` is set to `None`), or the call raised
some other exception (control jumps to the OCR fallback's `except` handler). -/
inductive DigitalOutcome where
  | ok (text : Option Str)
  | timeout
  | exn (msg : Str)

/-- Outcome of `page.extract_tables()` (lines 182–196): the returned list of
tables (each a list of rows, each row a list of cells which may be `None`),
or a raised exception (caught and only logged — nothing is appended). -/
inductive TableOutcome where
  | ok (tables : List (List (List (Option Str))))
  | exn (msg : Str)

/-- Outcome of the OCR fallback for one page (lines 207–263): the recognized
string (possibly empty), the 30-second alarm fired (`ocr_text` is `None`), or
rasterization/OCR raised (handled by the `[OCR FAILED: ...]` branch). -/
inductive OcrOutcome where
  | ok (text : Str)
  | timeout
  | exn (msg : Str)

/-- What the external collaborators do on one page: the outcome of each of
the three strategy calls the page loop can make. -/
structure PageBehavior where
  digital : DigitalOutcome
  tables : TableOutcome
  ocr : OcrOutcome

/-- The branch condition `if text and len(text.strip()) > 50:` (line 176):
digital extraction is deemed sufficient iff it returned a non-empty (truthy)
string whose stripped length exceeds 50.  A timeout (`text = None`), a `None`
return, or an exception all fail the condition and lead to the OCR fallback
(the insufficient-text case raises `ValueError`, caught by the same handler
as a digital-step exception, line 202). -/
def digitalSufficient : DigitalOutcome → Bool
  | .ok (some t) => !t.isEmpty && 50 < (pyStrip t).length
  | _ => false

/-- The digital text used by the sufficient branch. -/
def digitalTextOf : DigitalOutcome → Str
  | .ok (some t) => t
  | _ => []

/-- Python `sep.join(parts)`. -/
def pyJoin (sep : Str) : List Str → Str
  | [] => []
  | [x] => x
  | x :: xs => x ++ sep ++ pyJoin sep xs

/-- Table rendering (lines 183–194): non-empty rows become `" | "`-joined
lines of sanitized cells, `None`/empty cells rendering as the empty string
(`clean_text_for_api(str(cell) if cell else "")`); empty rows are skipped. -/
def tableRows (nfkd : Str → Str) (table : List (List (Option Str))) : List Str :=
  (table.filter (fun row => !row.isEmpty)).map (fun row =>
    pyJoin (str " | ") (row.map (fun cell =>
      clean_text_for_api nfkd (cell.getD []))))

/-- The `page_content` entries appended for tables (lines 183–194): if the
returned table list is non-empty, a `==TABLES FOUND==` header and, for each
non-empty table (1-based index), a `Table i:` header plus its rows. -/
def tableElems (nfkd : Str → Str) (tables : List (List (List (Option Str)))) :
    List Str :=
  if tables.isEmpty then []
  else
    str "\n==TABLES FOUND==" ::
      (tables.enum.flatMap (fun p =>
        if !p.2.isEmpty then
          (str "\nTable " ++ natStr (p.1 + 1) ++ str ":") :: tableRows nfkd p.2
        else []))

/-- `re.sub(r'[^\x20-\x7E\n\r\t]', '', ocr_text)` (line 250): keep only
printable ASCII plus newline, carriage return and tab. -/
def ocrAsciiFilter (l : Str) : Str :=
  l.filter (fun c => (32 ≤ c.toNat && c.toNat ≤ 126)
    || c = '\n' || c = '\r' || c = '\t')

/-- `e.encode('ascii', errors='ignore').decode('ascii')`: drop every
character above code point 127 (used on OCR error messages, line 261). -/
def asciiIgnore (l : Str) : Str := l.filter (fun c => c.toNat < 128)

/-- The `page_content` entries appended between the OCR start/end markers
(lines 213–263): a returned empty string is falsy, so it takes the same
`[OCR TIMED OUT FOR THIS PAGE]` branch as a real timeout; a returned
non-empty string is sanitized, filtered to printable ASCII, and appended if
anything non-blank remains (else the `[OCR PRODUCED NO READABLE TEXT]`
marker); an exception appends `[OCR FAILED: <ascii-encoded message>]`. -/
def ocrBody (nfkd : Str → Str) : OcrOutcome → List Str
  | .ok t =>
    if t.isEmpty then [str "[OCR TIMED OUT FOR THIS PAGE]"]
    else
      let c := ocrAsciiFilter (clean_text_for_api nfkd t)
      if !(pyStrip c).isEmpty then [c] else [str "[OCR PRODUCED NO READABLE TEXT]"]
  | .timeout => [str "[OCR TIMED OUT FOR THIS PAGE]"]
  | .exn m => [str "[OCR FAILED: " ++ asciiIgnore m ++ str "]"]

/-- The whole OCR fallback block of a page (lines 204–265): start marker,
body, end marker. -/
def ocrBlock (nfkd : Str → Str) (n : Nat) (o : OcrOutcome) : List Str :=
  (str "==START OF OCR FOR PAGE " ++ natStr n ++ str "==") ::
    (ocrBody nfkd o ++ [str "==END OF OCR FOR PAGE " ++ natStr n ++ str "=="])

/-- The `page_content` list built for page `n` (lines 142–265): the page
header entries, then either the digital-text branch (header, sanitized text,
table entries; a table exception appends nothing) or the OCR fallback
block. -/
def pageContentElems (nfkd : Str → Str) (n : Nat) (b : PageBehavior) :
    List Str :=
  (nlStr ++ sep50) :: (str "PAGE " ++ natStr n) :: (sep50 ++ nlStr) ::
    (if digitalSufficient b.digital then
      str "==DIGITAL TEXT EXTRACTION==" ::
        clean_text_for_api nfkd (digitalTextOf b.digital) ::
          (match b.tables with
            | .ok tables => tableElems nfkd tables
            | .exn _ => [])
    else ocrBlock nfkd n b.ocr)

/-- `'\n'.join(page_content)` (line 267): the Page Result appended to
`extracted_content` for page `n`. -/
def processPage (nfkd : Str → Str) (n : Nat) (b : PageBehavior) : Str :=
  pyJoin nlStr (pageContentElems nfkd n b)

/-- What the document-level collaborators do: `pdfplumber.open` raised
(nothing had been extracted yet), or it opened and yielded the given pages. -/
inductive DocBehavior where
  | openFail (msg : Str)
  | opened (pages : List PageBehavior)

/-- The document structure header (lines 273–275). -/
def documentHeader : List Str :=
  [sep60, str "DOCUMENT CONTENT EXTRACTION", sep60]

/-- `extract_text_from_pdf(pdf_path)` (lines 123–296).  When opening fails,
the top-level handler finds `extracted_content` empty and returns the
`[PDF EXTRACTION FAILED: ...]` marker string (lines 290–296).  Otherwise the
pages are processed in order (1-based indices), the document header and the
Page Results are joined with newlines, and the whole string is sanitized
once more (lines 269–288).  `assembledDoc` is the string built by lines
269–281 (the argument of the final sanitization). -/
def assembledDoc (nfkd : Str → Str) (pages : List PageBehavior) : Str :=
  pyJoin nlStr
    (documentHeader ++ pages.enum.map (fun p => processPage nfkd (p.1 + 1) p.2))

/-- `extract_text_from_pdf(pdf_path)`, continued: open failure returns the
failure marker (lines 290–296), success sanitizes the assembled document. -/
def extract_text_from_pdf (nfkd : Str → Str) : DocBehavior → Str
  | .openFail msg => str "[PDF EXTRACTION FAILED: " ++ msg ++ str "]"
  | .opened pages => clean_text_for_api nfkd (assembledDoc nfkd pages)

/-- `extract_text_from_pdf` viewed as a fallible (exception-aware) operation:
the function body is wrapped in `try/except Exception` whose handler
`return`s (lines 290–296), so every outcome — the open failure included — is
a normal return, never a raised exception. -/
def extract_text_from_pdfE (nfkd : Str → Str) (d : DocBehavior) :
    Except Str Str :=
  Except.ok (extract_text_from_pdf nfkd d)

/-- The page-boundary marker pattern: the 50-character separator line,
a newline, and the `PAGE ` header prefix. -/
def pageMarkerPat : Str := sep50 ++ str "\nPAGE "

/-- Scans a string for page-boundary markers: at every position where
`pageMarkerPat` occurs, records the digit run following it (the page index),
in order of occurrence. -/
def markerSeq : Str → List Str
  | [] => []
  | c :: cs =>
    if pageMarkerPat.isPrefixOf (c :: cs) then
      ((c :: cs).drop pageMarkerPat.length).takeWhile Char.isDigit :: markerSeq cs
    else markerSeq cs

/-- Modelled from the spec: the Validation component (spec §4.4) does not
occur under `src/` (only the extraction and analysis code does), so its fixed
engineering vocabulary is taken from the specification's examples:
"specification", "pressure", "material", "dimensions", "rating". -/
def engineeringVocabulary : List Str :=
  [str "specification", str "pressure", str "material",
   str "dimensions", str "rating"]

/-- Case-insensitive comparison is done by lower-casing the candidate text. -/
def toLowerStr (l : Str) : Str := l.map Char.toLower

/-- `pat` occurs as a contiguous substring of the second argument
(Python's `in` operator on strings). -/
def hasSubstr (pat : Str) : Str → Bool
  | [] => pat.isEmpty
  | c :: cs => pat.isPrefixOf (c :: cs) || hasSubstr pat cs

/-- Modelled from the spec (§4.4): the Validation operation.  "Reject (false)
if text is absent or shorter than 50 characters after trimming.  Otherwise,
case-insensitively count occurrences of members from a fixed vocabulary set
of engineering/spec terms; accept (true) iff at least 3 distinct vocabulary
terms are present." -/
def validateExtractedText : Option Str → Bool
  | none => false
  | some t =>
    if (pyStrip t).length < 50 then false
    else 3 ≤ (engineeringVocabulary.filter
      (fun w => hasSubstr w (toLowerStr t))).length

/-- The OCR fallback (the `except` handler of lines 202–265) runs exactly
when the digital step did not succeed with sufficient text: a digital
exception jumps there directly, and a timeout, `None`/empty return or
insufficient stripped length raises `ValueError` into the same handler. -/
def ocrAttempted (b : PageBehavior) : Bool := !digitalSufficient b.digital

/-- The character set the sanitizer guarantees for its output: horizontal
tab, line feed, carriage return, or printable ASCII. -/
def allowedOut (c : Char) : Bool :=
  c.toNat = 9 || c.toNat = 10 || c.toNat = 13 ||
    (32 ≤ c.toNat && c.toNat ≤ 126)

/-- "Tame" characters: printable ASCII or newline.  Every string the final
whitespace-normalization stage of the sanitizer sees is tame, and sanitizer
output is tame. -/
def tameChar (c : Char) : Bool := c = '\n' || (32 ≤ c.toNat && c.toNat ≤ 126)

/-- A tame whitespace character: space or newline. -/
def tameWs (c : Char) : Bool := c = ' ' || c = '\n'

/-- A tame word character: printable ASCII other than space. -/
def tameWord (c : Char) : Bool := 32 < c.toNat && c.toNat ≤ 126

/-- The combined effect of the three whitespace substitutions of
`clean_text_for_api` (lines 117–119) on a maximal whitespace run lying
between two non-whitespace characters, for tame input: a run without
newlines collapses to one space; a run with one newline becomes a single
newline; a run with exactly two newlines becomes a single newline if some
space separates them and vanishes if they are adjacent; a run with three or
more newlines vanishes. -/
def wsSep (r : Str) : Str :=
  if r.count '\n' = 0 then (if r.isEmpty then [] else [' '])
  else if r.count '\n' = 1 then ['\n']
  else if 3 ≤ r.count '\n' then []
  else if lastNlPrevIsNl r then [] else ['\n']

/-- Renders an alternating word/whitespace-run decomposition the way the
whitespace-normalization stage renders the whole string: each word kept,
each interior run replaced by its separator, the trailing run dropped. -/
def renderPs (sep : Str → Str) : List (Str × Str) → Str
  | [] => []
  | [(w, _)] => w
  | (w, r) :: ps => w ++ sep r ++ renderPs sep ps

/-- Recomposes an alternating decomposition: each pair is a word followed by
a whitespace run. -/
def concatPairs (ps : List (Str × Str)) : Str :=
  (ps.map (fun p => p.1 ++ p.2)).flatten

/-- The canonical alternating decomposition of a string after its leading
whitespace run: repeatedly split off a maximal non-whitespace word and the
maximal whitespace run following it. -/
def decompPairs : Str → List (Str × Str)
  | [] => []
  | c :: cs =>
    ((c :: cs).takeWhile (fun d => !isWs d),
      (((c :: cs).dropWhile (fun d => !isWs d)).takeWhile isWs)) ::
      decompPairs (((c :: cs).dropWhile (fun d => !isWs d)).dropWhile isWs)
termination_by l => l.length
decreasing_by
  by_cases h : isWs c
  · have h1 : (c :: cs).dropWhile (fun d => !isWs d) = c :: cs := by
      simp [List.dropWhile_cons, h]
    rw [h1]
    have h2 : (c :: cs).dropWhile isWs = cs.dropWhile isWs := by
      simp [List.dropWhile_cons, h]
    rw [h2]
    simp only [List.length_cons, Nat.lt_succ_iff]
    exact (List.dropWhile_sublist _).length_le
  · have h1 : (c :: cs).dropWhile (fun d => !isWs d) = cs.dropWhile (fun d => !isWs d) := by
      simp [List.dropWhile_cons, h]
    rw [h1]
    simp only [List.length_cons, Nat.lt_succ_iff]
    exact le_trans ((List.dropWhile_sublist _).length_le)
      ((List.dropWhile_sublist _).length_le)

/-- The composite effect of the three whitespace substitutions on one
maximal whitespace run lying strictly between two words (on tame input it
computes `wsSep`, but it is meaningful for every run). -/
def sepFn (r : Str) : Str := sub3Interior (sub2Flush (sub1 r))

/-- Merges an alternating decomposition along the separators a run map
produces: words joined by an empty separator coalesce into one word, a
nonempty separator becomes the new run between two words, and the last run
becomes empty — yielding a decomposition of the rendered string. -/
def mergeSep (sep : Str → Str) : List (Str × Str) → List (Str × Str)
  | [] => []
  | [(w, _)] => [(w, [])]
  | (w, r) :: ps =>
    match mergeSep sep ps with
    | [] => [(w, [])]
    | (w', r') :: qs =>
      if sep r = [] then (w ++ w', r') :: qs
      else (w, sep r) :: (w', r') :: qs

/-- The whitespace-normalization tail of the sanitizer: the three `re.sub`
passes (lines 117–119) followed by the final `strip` (line 121). -/
def postprocess (x : Str) : Str := pyStrip (sub3 (sub2 (sub1 x)))

/-- The character-level stages of the sanitizer between NFKD normalization
and the whitespace normalization: the replacement table, box-drawing
removal, `string.printable` filtering, control-character removal, and ASCII
re-encoding with `errors='ignore'` (lines 99–115). -/
def tstages (t : Str) : Str :=
  ((((t.map replaceChar).flatten.filter (fun c => !isBoxChar c)).map
    (fun c => if pythonPrintable c then c else ' ')).filter
    (fun c => 32 ≤ c.toNat || c ∈ ['\n', '\r', '\t'])).filter
    (fun c => c.toNat < 128)

/-- A page behaviour that recovers no document text: the digital text is
missing or too short (so OCR is attempted, line 176) and the OCR fallback
raises, times out, or returns the empty string — every `page_content` entry
such a page contributes is a section header or failure marker. -/
def pageYieldsNoText (b : PageBehavior) : Bool :=
  !digitalSufficient b.digital &&
    (match b.ocr with
     | OcrOutcome.ok t => t.isEmpty
     | _ => true)

/-- A page on which every strategy fails: the digital step returns `None`
and the OCR fallback times out; such a page recovers no text at all. -/
def pageTimeout : PageBehavior :=
  ⟨DigitalOutcome.ok none, TableOutcome.ok [], OcrOutcome.timeout⟩

/-- The word/whitespace-run decomposition of the Page Result a
`pageTimeout` page contributes to the assembled document (the trailing
`"\n\n"` run pairs it with the following page's separator line, or is
cleared at the document end). -/
def pagePairsT (n : Nat) : List (Str × Str) :=
  [(sep50, str "\n"), (str "PAGE", str " "), (natStr n, str "\n"),
   (sep50, str "\n\n"),
   (str "==START", str " "), (str "OF", str " "), (str "OCR", str " "),
   (str "FOR", str " "), (str "PAGE", str " "),
   (natStr n ++ str "==", str "\n"),
   (str "[OCR", str " "), (str "TIMED", str " "), (str "OUT", str " "),
   (str "FOR", str " "), (str "THIS", str " "), (str "PAGE]", str "\n"),
   (str "==END", str " "), (str "OF", str " "), (str "OCR", str " "),
   (str "FOR", str " "), (str "PAGE", str " "),
   (natStr n ++ str "==", str "\n\n")]

/-- The word/whitespace-run decomposition of the document header. -/
def hdrPairsT : List (Str × Str) :=
  [(sep60, str "\n"), (str "DOCUMENT", str " "), (str "CONTENT", str " "),
   (str "EXTRACTION", str "\n"), (sep60, str "\n\n")]

/-- The decomposition of the whole assembled document for `N` all-failing
pages (once the final pair's dangling run is cleared by `setLastRun`). -/
def psTimeout (N : Nat) : List (Str × Str) :=
  hdrPairsT ++ (List.range N).flatMap (fun i => pagePairsT (i + 1))

/-- Clears the final pair's run, for decomposing a string that carries no
trailing whitespace. -/
def setLastRun : List (Str × Str) → List (Str × Str)
  | [] => []
  | [(w, _)] => [(w, [])]
  | p :: ps => p :: setLastRun ps

/-- The sanitized Page Result of one all-failing page, as it appears in
the final Document Result: the blank line above the separator line is
glued away, as is the one between the separator line and the OCR start
marker. -/
def pageOutT (n : Nat) : Str :=
  sep50 ++ str "\nPAGE " ++ natStr n ++ str "\n" ++ sep50 ++
  str "==START OF OCR FOR PAGE " ++ natStr n ++
  str "==\n[OCR TIMED OUT FOR THIS PAGE]\n==END OF OCR FOR PAGE " ++
  natStr n ++ str "=="

/-- The page section of the final Document Result for the `m` all-failing
pages numbered `n`, `n+1`, …, `n+m-1`. -/
def outT (n : Nat) : Nat → Str
  | 0 => []
  | m + 1 => pageOutT n ++ outT (n + 1) m

/-! ## Character-set lemmas for the sanitizer -/

theorem mem_sub1Go {c : Char} : ∀ {b : Bool} {l : Str}, c ∈ sub1Go b l →
    c = ' ' ∨ c ∈ l := by
  intro b l
  induction l generalizing b with
  | nil => simp [sub1Go]
  | cons d ds ih =>
    intro h
    simp only [sub1Go] at h
    by_cases hd : (d = ' ' || d = '\t') = true
    · rw [if_pos hd] at h
      rcases List.mem_append.mp h with h1 | h1
      · left
        rcases Bool.eq_false_or_eq_true b with hb | hb <;> simp [hb] at h1 <;>
          simp [h1]
      · rcases ih h1 with h2 | h2
        · exact Or.inl h2
        · exact Or.inr (List.mem_cons_of_mem _ h2)
    · rw [if_neg hd] at h
      rcases List.mem_cons.mp h with h1 | h1
      · exact Or.inr (h1 ▸ List.mem_cons_self _ _)
      · rcases ih h1 with h2 | h2
        · exact Or.inl h2
        · exact Or.inr (List.mem_cons_of_mem _ h2)

theorem mem_sub2Flush {c : Char} {r : Str} (h : c ∈ sub2Flush r) :
    c = '\n' ∨ c ∈ r := by
  unfold sub2Flush at h
  split at h
  · rcases List.mem_append.mp h with h1 | h1
    · exact Or.inr ((List.takeWhile_sublist _).mem h1)
    · rcases List.mem_cons.mp h1 with h2 | h2
      · exact Or.inl h2
      rcases List.mem_cons.mp h2 with h3 | h3
      · exact Or.inl h3
      · refine Or.inr ?_
        have := (List.takeWhile_sublist (l := r.reverse)
          (fun d => d != '\n')).mem (List.mem_reverse.mp h3)
        exact List.mem_reverse.mp this
  · exact Or.inr h

theorem mem_sub2Go {c : Char} : ∀ {l acc : Str}, c ∈ sub2Go acc l →
    c = '\n' ∨ c ∈ acc ∨ c ∈ l := by
  intro l
  induction l with
  | nil =>
    intro acc h
    simp only [sub2Go] at h
    rcases mem_sub2Flush h with h1 | h1
    · exact Or.inl h1
    · exact Or.inr (Or.inl h1)
  | cons d ds ih =>
    intro acc h
    simp only [sub2Go] at h
    split at h
    · rcases ih h with h1 | h1 | h1
      · exact Or.inl h1
      · rcases List.mem_append.mp h1 with h2 | h2
        · exact Or.inr (Or.inl h2)
        · simp only [List.mem_singleton] at h2
          exact Or.inr (Or.inr (h2 ▸ List.mem_cons_self _ _))
      · exact Or.inr (Or.inr (List.mem_cons_of_mem _ h1))
    · rcases List.mem_append.mp h with h1 | h1
      · rcases mem_sub2Flush h1 with h2 | h2
        · exact Or.inl h2
        · exact Or.inr (Or.inl h2)
      · rcases List.mem_cons.mp h1 with h2 | h2
        · exact Or.inr (Or.inr (h2 ▸ List.mem_cons_self _ _))
        · rcases ih h2 with h3 | h3 | h3
          · exact Or.inl h3
          · simp at h3
          · exact Or.inr (Or.inr (List.mem_cons_of_mem _ h3))

theorem mem_sub3Interior {c : Char} {r : Str} (h : c ∈ sub3Interior r) :
    c = '\n' ∨ c ∈ r := by
  unfold sub3Interior at h
  split at h
  · exact Or.inr h
  · split at h
    · simp at h
    · simp only [List.mem_singleton] at h
      exact Or.inl h

theorem mem_sub3Go {c : Char} : ∀ {l : Str} {f : Bool} {acc : Str},
    c ∈ sub3Go f acc l → c = '\n' ∨ c ∈ acc ∨ c ∈ l := by
  intro l
  induction l with
  | nil => intro f acc h; simp [sub3Go] at h
  | cons d ds ih =>
    intro f acc h
    simp only [sub3Go] at h
    split at h
    · rcases ih h with h1 | h1 | h1
      · exact Or.inl h1
      · rcases List.mem_append.mp h1 with h2 | h2
        · exact Or.inr (Or.inl h2)
        · simp only [List.mem_singleton] at h2
          exact Or.inr (Or.inr (h2 ▸ List.mem_cons_self _ _))
      · exact Or.inr (Or.inr (List.mem_cons_of_mem _ h1))
    · rcases List.mem_append.mp h with h1 | h1
      · split at h1
        · simp at h1
        · rcases mem_sub3Interior h1 with h2 | h2
          · exact Or.inl h2
          · exact Or.inr (Or.inl h2)
      · rcases List.mem_cons.mp h1 with h2 | h2
        · exact Or.inr (Or.inr (h2 ▸ List.mem_cons_self _ _))
        · rcases ih h2 with h3 | h3 | h3
          · exact Or.inl h3
          · simp at h3
          · exact Or.inr (Or.inr (List.mem_cons_of_mem _ h3))

theorem mem_pyStrip {c : Char} {l : Str} (h : c ∈ pyStrip l) : c ∈ l := by
  unfold pyStrip at h
  have h1 := List.mem_reverse.mp h
  have h2 := (List.dropWhile_sublist _).mem h1
  have h3 := List.mem_reverse.mp h2
  exact (List.dropWhile_sublist _).mem h3

theorem allowedOut_of_mem_cleanAfterNFKD {c : Char} {t : Str}
    (h : c ∈ cleanAfterNFKD t) : allowedOut c = true := by
  unfold cleanAfterNFKD at h
  have h1 := mem_pyStrip h
  have h2 := mem_sub3Go h1
  rcases h2 with h2 | h2 | h2
  · subst h2; decide
  · simp at h2
  have h3 := mem_sub2Go h2
  rcases h3 with h3 | h3 | h3
  · subst h3; decide
  · simp at h3
  have h4 := mem_sub1Go h3
  rcases h4 with h4 | h4
  · subst h4; decide
  have h5 := List.mem_filter.mp h4
  have h6 := List.mem_filter.mp h5.1
  rcases h6 with ⟨h7, h8⟩
  have h9 := List.mem_map.mp h7
  rcases h9 with ⟨d, _, hd⟩
  by_cases hp : pythonPrintable d = true
  · rw [if_pos hp] at hd
    subst hd
    unfold pythonPrintable at hp
    unfold allowedOut
    simp only [Bool.or_eq_true, Bool.and_eq_true, decide_eq_true_eq] at hp h8 ⊢
    rcases h8 with h8 | h8
    · rcases hp with hp | hp <;> omega
    · simp only [List.mem_cons, List.not_mem_nil, or_false] at h8
      rcases h8 with h8 | h8 | h8 <;> subst h8 <;> simp
  · rw [if_neg hp] at hd
    subst hd; decide

/-- **C3.**  ASCII-safety of the sanitizer: every character of
`clean_text_for_api(s)` is one of 0x09, 0x0A, 0x0D, or lies in the printable
ASCII range 0x20–0x7E — for every input string and every behaviour of the
NFKD normalization step. -/
theorem clean_text_for_api_ascii_safe (nfkd : Str → Str) (text : Str) :
    (clean_text_for_api nfkd text).all allowedOut = true := by
  rw [List.all_eq_true]
  intro c hc
  unfold clean_text_for_api at hc
  split at hc
  · simp at hc
  · exact allowedOut_of_mem_cleanAfterNFKD hc

/-! ## The concrete sanitizer scenario -/

/-- **C8.**  On the input `"Pressure’s rating: 5°C – typical"` the
sanitizer returns exactly `"Pressure's rating: 5 degreesC - typical"`.
(The hypothesis records the relevant fact about Unicode NFKD normalization:
none of the characters of this input decomposes, so `unicodedata.normalize`
fixes it.) -/
theorem clean_text_for_api_scenario (nfkd : Str → Str)
    (h : nfkd (str "Pressure’s rating: 5°C – typical")
       = str "Pressure’s rating: 5°C – typical") :
    clean_text_for_api nfkd (str "Pressure’s rating: 5°C – typical")
      = str "Pressure's rating: 5 degreesC - typical" := by
  unfold clean_text_for_api
  rw [h]
  decide

/-- Witness for C8 at the identity normalization. -/
theorem clean_text_for_api_scenario_witness :
    clean_text_for_api id (str "Pressure’s rating: 5°C – typical")
      = str "Pressure's rating: 5 degreesC - typical" :=
  clean_text_for_api_scenario id rfl

/-! ## Substring lemmas -/

theorem hasSubstr_iff {pat s : Str} :
    hasSubstr pat s = true ↔ ∃ x y, s = x ++ pat ++ y := by
  induction s with
  | nil =>
    simp only [hasSubstr, List.isEmpty_iff]
    constructor
    · intro h
      exact ⟨[], [], by simp [h]⟩
    · rintro ⟨x, y, hxy⟩
      have h := congrArg List.length hxy
      simp only [List.length_append, List.length_nil] at h
      have h2 : pat.length = 0 := by omega
      exact List.length_eq_zero.mp h2
  | cons c cs ih =>
    simp only [hasSubstr, Bool.or_eq_true]
    constructor
    · intro h
      rcases h with h | h
      · rcases List.isPrefixOf_iff_prefix.mp h with ⟨t, ht⟩
        exact ⟨[], t, by simp [← ht]⟩
      · rcases ih.mp h with ⟨x, y, hxy⟩
        exact ⟨c :: x, y, by simp [hxy]⟩
    · rintro ⟨x, y, hxy⟩
      cases x with
      | nil =>
        left
        rw [List.isPrefixOf_iff_prefix]
        exact ⟨y, by simpa using hxy.symm⟩
      | cons d ds =>
        right
        apply ih.mpr
        have h2 : cs = ds ++ pat ++ y := by
          have h3 := hxy
          simp only [List.cons_append, List.cons.injEq] at h3
          exact h3.2
        exact ⟨ds, y, h2⟩

theorem hasSubstr_pyJoin {a sep : Str} :
    ∀ {l : List Str}, a ∈ l → hasSubstr a (pyJoin sep l) = true := by
  intro l
  induction l with
  | nil => intro h; simp at h
  | cons x xs ih =>
    intro h
    cases xs with
    | nil =>
      simp only [List.mem_cons, List.not_mem_nil, or_false] at h
      subst h
      exact hasSubstr_iff.mpr ⟨[], [], by simp [pyJoin]⟩
    | cons y ys =>
      rcases List.mem_cons.mp h with h1 | h1
      · subst h1
        exact hasSubstr_iff.mpr ⟨[], sep ++ pyJoin sep (y :: ys), by
          simp [pyJoin]⟩
      · rcases hasSubstr_iff.mp (ih h1) with ⟨u, v, huv⟩
        refine hasSubstr_iff.mpr ⟨x ++ sep ++ u, v, ?_⟩
        simp [pyJoin, huv]

/-! ## The digital-text sufficiency threshold (strategy fallback) -/

/-- **C2 counterexample.**  A page whose digital extraction yields exactly 50
characters after trimming — hence "at least 50" — still falls back to OCR:
the branch of line 176 requires strictly more than 50 characters. -/
theorem strategy_threshold_counterexample :
    50 ≤ (pyStrip (List.replicate 50 'x')).length ∧
    ocrAttempted
      ⟨.ok (some (List.replicate 50 'x')), .ok [], .timeout⟩ = true ∧
    (str "==START OF OCR FOR PAGE 1==")
      ∈ pageContentElems id 1
        ⟨.ok (some (List.replicate 50 'x')), .ok [], .timeout⟩ := by
  refine ⟨by decide, by decide, by decide⟩

/-- **C2 as amended.**  For a page whose digital extraction returned the
string `t`: OCR is attempted iff `t` trims to at most 50 characters (not 49);
when it is attempted the Page Result receives the OCR-section marker, and
when it is not the Page Result receives the digital-text section marker. -/
theorem strategy_threshold_amended (nfkd : Str → Str) (n : Nat)
    (b : PageBehavior) (t : Str) (h : b.digital = .ok (some t)) :
    (ocrAttempted b = true ↔ (pyStrip t).length ≤ 50) ∧
    (ocrAttempted b = true →
      (str "==START OF OCR FOR PAGE " ++ natStr n ++ str "==")
        ∈ pageContentElems nfkd n b) ∧
    (ocrAttempted b = false →
      str "==DIGITAL TEXT EXTRACTION==" ∈ pageContentElems nfkd n b) := by
  refine ⟨?_, ?_, ?_⟩
  · unfold ocrAttempted digitalSufficient
    rw [h]
    cases t with
    | nil => simp [pyStrip]
    | cons c cs => simp [not_lt]
  · intro hocr
    have hds : digitalSufficient b.digital = false := by
      unfold ocrAttempted at hocr
      simpa using hocr
    unfold pageContentElems
    rw [hds]
    simp [ocrBlock]
  · intro hocr
    have hds : digitalSufficient b.digital = true := by
      unfold ocrAttempted at hocr
      simpa using hocr
    unfold pageContentElems
    rw [hds]
    simp

/-- Witness for the amended C2 at a concrete page behaviour. -/
theorem strategy_threshold_amended_witness :
    (ocrAttempted ⟨.ok (some (str "abc")), .ok [], .timeout⟩ = true ↔
      (pyStrip (str "abc")).length ≤ 50) ∧
    (ocrAttempted ⟨.ok (some (str "abc")), .ok [], .timeout⟩ = true →
      (str "==START OF OCR FOR PAGE " ++ natStr 1 ++ str "==")
        ∈ pageContentElems id 1 ⟨.ok (some (str "abc")), .ok [], .timeout⟩) ∧
    (ocrAttempted ⟨.ok (some (str "abc")), .ok [], .timeout⟩ = false →
      str "==DIGITAL TEXT EXTRACTION=="
        ∈ pageContentElems id 1 ⟨.ok (some (str "abc")), .ok [], .timeout⟩) :=
  strategy_threshold_amended id 1 _ (str "abc") rfl

/-! ## The timeout marker on empty OCR output -/

/-- **C10.**  When a page falls back to OCR and the OCR call returns without
timing out but with an empty string, the empty string is falsy, so the page
takes the very branch that writes `[OCR TIMED OUT FOR THIS PAGE]` (lines
246–256): the timeout marker's presence does not imply a timeout happened. -/
theorem ocr_empty_marked_as_timeout (nfkd : Str → Str) (n : Nat)
    (b : PageBehavior) (hocr : b.ocr = .ok []) (hatt : ocrAttempted b = true) :
    str "[OCR TIMED OUT FOR THIS PAGE]" ∈ pageContentElems nfkd n b ∧
    hasSubstr (str "[OCR TIMED OUT FOR THIS PAGE]")
      (processPage nfkd n b) = true := by
  have hds : digitalSufficient b.digital = false := by
    unfold ocrAttempted at hatt
    simpa using hatt
  have hmem : str "[OCR TIMED OUT FOR THIS PAGE]" ∈ pageContentElems nfkd n b := by
    unfold pageContentElems
    rw [hds]
    simp only [Bool.false_eq_true, if_false]
    unfold ocrBlock
    rw [hocr]
    unfold ocrBody
    simp
  exact ⟨hmem, hasSubstr_pyJoin hmem⟩

/-- Witness for C10: a page with insufficient digital text whose OCR call
returns the empty string. -/
theorem ocr_empty_marked_as_timeout_witness :
    str "[OCR TIMED OUT FOR THIS PAGE]"
      ∈ pageContentElems id 1 ⟨.ok none, .ok [], .ok []⟩ ∧
    hasSubstr (str "[OCR TIMED OUT FOR THIS PAGE]")
      (processPage id 1 ⟨.ok none, .ok [], .ok []⟩) = true :=
  ocr_empty_marked_as_timeout id 1 _ rfl (by decide)

/-! ## Per-page failure handling -/

set_option maxRecDepth 8000 in
/-- **C6 counterexample.**  A table-extraction failure is caught and logged
but converted into no marker text at all: the Page Result is literally the
same string as when table extraction succeeds finding no tables, and the
error message appears nowhere.  (The digital text here is 51 characters, so
the digital branch with its table step runs.) -/
theorem table_failure_counterexample :
    processPage id 1
        ⟨.ok (some (List.replicate 51 'x')), .exn (str "boom"), .timeout⟩ =
      processPage id 1
        ⟨.ok (some (List.replicate 51 'x')), .ok [], .timeout⟩ ∧
    hasSubstr (str "boom")
      (processPage id 1
        ⟨.ok (some (List.replicate 51 'x')), .exn (str "boom"), .timeout⟩)
      = false := by
  refine ⟨by decide, by decide⟩

/-- **C6 as amended.**  No per-page strategy failure propagates out of the
page loop (each failure is a caught outcome): a table-extraction failure
leaves the already-appended digital-text result intact and appends nothing
(the Page Result equals the one of a no-tables success); a digital-text
error diverts to the OCR fallback, whose section markers appear inline; an
OCR error or timeout is converted into an inline marker string in that
page's result. -/
theorem page_failure_amended (nfkd : Str → Str) (n : Nat)
    (d : DigitalOutcome) (tb : TableOutcome) (o : OcrOutcome) :
    (∀ m, pageContentElems nfkd n ⟨d, .exn m, o⟩
        = pageContentElems nfkd n ⟨d, .ok [], o⟩) ∧
    (∀ m, d = .exn m →
      (str "==START OF OCR FOR PAGE " ++ natStr n ++ str "==")
        ∈ pageContentElems nfkd n ⟨d, tb, o⟩) ∧
    (∀ m, o = .exn m → ocrAttempted ⟨d, tb, o⟩ = true →
      (str "[OCR FAILED: " ++ asciiIgnore m ++ str "]")
        ∈ pageContentElems nfkd n ⟨d, tb, o⟩) ∧
    (o = .timeout → ocrAttempted ⟨d, tb, o⟩ = true →
      str "[OCR TIMED OUT FOR THIS PAGE]"
        ∈ pageContentElems nfkd n ⟨d, tb, o⟩) := by
  refine ⟨?_, ?_, ?_, ?_⟩
  · intro m
    unfold pageContentElems
    by_cases hds : digitalSufficient d = true
    · rw [hds]
      simp [tableElems]
    · rw [Bool.not_eq_true] at hds
      rw [hds]
      simp
  · intro m hd
    subst hd
    unfold pageContentElems
    have hds : digitalSufficient (DigitalOutcome.exn m) = false := rfl
    rw [hds]
    simp [ocrBlock]
  · intro m ho hatt
    subst ho
    have hds : digitalSufficient d = false := by
      unfold ocrAttempted at hatt
      simpa using hatt
    unfold pageContentElems
    rw [hds]
    simp [ocrBlock, ocrBody]
  · intro ho hatt
    subst ho
    have hds : digitalSufficient d = false := by
      unfold ocrAttempted at hatt
      simpa using hatt
    unfold pageContentElems
    rw [hds]
    simp [ocrBlock, ocrBody]

/-- Witness for the amended C6: an OCR timeout on a page whose digital step
raised, with a failing table step. -/
theorem page_failure_amended_witness :
    str "[OCR TIMED OUT FOR THIS PAGE]"
      ∈ pageContentElems id 1 ⟨.exn (str "e"), .exn (str "t"), .timeout⟩ :=
  (page_failure_amended id 1 (.exn (str "e")) (.exn (str "t"))
    .timeout).2.2.2 rfl (by decide)

/-! ## Document-open failure -/

theorem markerSeq_nil_of_no_page : ∀ {s : Str},
    hasSubstr (str "PAGE") s = false → markerSeq s = [] := by
  intro s
  induction s with
  | nil => intro _; rfl
  | cons c cs ih =>
    intro h
    unfold markerSeq
    by_cases hp : pageMarkerPat.isPrefixOf (c :: cs) = true
    · exfalso
      rcases List.isPrefixOf_iff_prefix.mp hp with ⟨t, ht⟩
      have hdec : pageMarkerPat ++ t
          = (sep50 ++ ['\n']) ++ str "PAGE" ++ ([' '] ++ t) := by
        have : pageMarkerPat = (sep50 ++ ['\n']) ++ str "PAGE" ++ [' '] := by
          decide
        rw [this]
        simp
      have : hasSubstr (str "PAGE") (c :: cs) = true := by
        refine hasSubstr_iff.mpr ⟨sep50 ++ ['\n'], [' '] ++ t, ?_⟩
        rw [← ht, hdec]
      rw [this] at h
      exact Bool.true_eq_false.mp h
    · rw [Bool.not_eq_true] at hp
      rw [hp]
      simp only [Bool.false_eq_true, if_false]
      apply ih
      unfold hasSubstr at h
      simp only [Bool.or_eq_false_iff] at h
      exact h.2

/-- **C1 counterexample.**  When the document cannot be opened, the
operation does not fail hard: the top-level handler returns normally, and
the caller receives the plain string `[PDF EXTRACTION FAILED: x]` — a
returned value, not a raised error. -/
theorem open_failure_counterexample :
    extract_text_from_pdfE id (.openFail (str "x"))
      = Except.ok (str "[PDF EXTRACTION FAILED: x]") := by
  rfl

/-- **C1 as amended.**  When the document cannot be opened, the operation
returns (normally, without raising) exactly the marker string
`[PDF EXTRACTION FAILED: <error>]`; no partial Document Result is included —
in particular, whenever the error message itself is free of the word
`PAGE`, the returned string contains no page-boundary marker at all. -/
theorem open_failure_amended (nfkd : Str → Str) (msg : Str) :
    extract_text_from_pdfE nfkd (.openFail msg)
      = Except.ok (str "[PDF EXTRACTION FAILED: " ++ msg ++ str "]") ∧
    (hasSubstr (str "PAGE")
        (str "[PDF EXTRACTION FAILED: " ++ msg ++ str "]") = false →
      markerSeq (extract_text_from_pdf nfkd (.openFail msg)) = []) := by
  constructor
  · rfl
  · intro h
    exact markerSeq_nil_of_no_page h

/-- Witness for the amended C1 at a concrete error message. -/
theorem open_failure_amended_witness :
    markerSeq (extract_text_from_pdf id (.openFail (str "x"))) = [] :=
  (open_failure_amended id (str "x")).2 (by decide)

/-! ## Validation (modelled from the spec) -/

/-- **C9.**  The Validation operation returns `false` whenever the text is
absent or trims to fewer than 50 characters, and otherwise returns `true`
iff at least 3 distinct terms of the fixed engineering vocabulary occur in
the text, matched case-insensitively.  (The Validation component is not in
`src/`; `validateExtractedText` is modelled from the specification.) -/
theorem validation_rule :
    validateExtractedText none = false ∧
    (∀ t : Str, (pyStrip t).length < 50 →
      validateExtractedText (some t) = false) ∧
    (∀ t : Str, 50 ≤ (pyStrip t).length →
      (validateExtractedText (some t) = true ↔
        3 ≤ (engineeringVocabulary.filter
          (fun w => hasSubstr w (toLowerStr t))).length)) := by
  refine ⟨rfl, ?_, ?_⟩
  · intro t h
    simp only [validateExtractedText]
    rw [if_pos h]
  · intro t h
    simp only [validateExtractedText]
    rw [if_neg (by omega)]
    simp

/-- Witness for C9: a 60-character text containing three vocabulary terms
is accepted. -/
theorem validation_rule_witness :
    validateExtractedText
      (some (str "The pressure rating and material of this specification unit"))
      = true :=
  (validation_rule.2.2 _ (by decide)).mpr (by decide)

/-! ## No "no extractable content" error -/

set_option maxRecDepth 8000 in
/-- **C5 counterexample.**  A document that opens but whose only page yields
no text at all (digital extraction returns `None`, OCR returns the empty
string) still produces an ordinary Document Result — the document header
plus the page's markers — and no "no extractable content" error of any kind:
the code has no such error path (lines 269–296 build and return the result
unconditionally once opening succeeded). -/
theorem no_content_counterexample :
    extract_text_from_pdf id (.opened [⟨.ok none, .ok [], .ok []⟩])
      = str "============================================================\nDOCUMENT CONTENT EXTRACTION\n==============================================================================================================\nPAGE 1\n====================================================START OF OCR FOR PAGE 1==\n[OCR TIMED OUT FOR THIS PAGE]\n==END OF OCR FOR PAGE 1==" ∧
    markerSeq (extract_text_from_pdf id
      (.opened [⟨.ok none, .ok [], .ok []⟩])) = [str "1"] ∧
    hasSubstr (str "no extractable content")
      (extract_text_from_pdf id (.opened [⟨.ok none, .ok [], .ok []⟩]))
      = false ∧
    (str "[PDF EXTRACTION FAILED: ").isPrefixOf
      (extract_text_from_pdf id (.opened [⟨.ok none, .ok [], .ok []⟩]))
      = false := by
  refine ⟨by decide, by decide, by decide, by decide⟩

/-! ## Decomposition lemmas for the whitespace-normalization stage -/

theorem concatPairs_cons (w r : Str) (ps : List (Str × Str)) :
    concatPairs ((w, r) :: ps) = w ++ r ++ concatPairs ps := by
  simp [concatPairs]

theorem nonWs_nonST {c : Char} (h : isWs c = false) :
    (c = ' ' || c = '\t') = false := by
  by_contra hc
  rw [Bool.not_eq_false, Bool.or_eq_true, decide_eq_true_eq,
    decide_eq_true_eq] at hc
  rcases hc with h1 | h1 <;> subst h1 <;> exact absurd h (by decide)

theorem sub1Go_append_nonST {y : Str}
    (hy : ∀ c, y.head? = some c → (c = ' ' || c = '\t') = false) :
    ∀ (x : Str) (b : Bool), sub1Go b (x ++ y) = sub1Go b x ++ sub1Go false y := by
  intro x
  induction x with
  | nil =>
    intro b
    cases y with
    | nil => rfl
    | cons c cs =>
      have hc := hy c rfl
      simp [sub1Go, hc]
  | cons d ds ih =>
    intro b
    by_cases hd : (d = ' ' || d = '\t') = true
    · simp only [List.cons_append, sub1Go, hd, if_true, List.append_eq]
      rw [ih true]
      simp
    · rw [Bool.not_eq_true] at hd
      simp only [List.cons_append, sub1Go, hd, Bool.false_eq_true, if_false,
        List.append_eq]
      rw [ih false]

theorem sub1Go_word : ∀ (w : Str), (∀ c ∈ w, isWs c = false) →
    ∀ (z : Str), sub1Go false (w ++ z) = w ++ sub1Go false z := by
  intro w
  induction w with
  | nil => intro _ z; rfl
  | cons d ds ih =>
    intro hw z
    have hd := nonWs_nonST (hw d (List.mem_cons_self _ _))
    simp only [List.cons_append, sub1Go, hd, Bool.false_eq_true, if_false,
      List.append_eq]
    rw [ih (fun c hc => hw c (List.mem_cons_of_mem _ hc)) z]

theorem sub1_decomp : ∀ (ps : List (Str × Str)) (r0 : Str),
    (∀ p ∈ ps, p.1 ≠ [] ∧ (∀ c ∈ p.1, isWs c = false)) →
    sub1 (r0 ++ concatPairs ps)
      = sub1 r0 ++ concatPairs (ps.map (fun p => (p.1, sub1 p.2))) := by
  intro ps
  induction ps with
  | nil => intro r0 _; simp [concatPairs, sub1]
  | cons p ps' ih =>
    intro r0 hwf
    obtain ⟨w, r⟩ := p
    have hw := hwf (w, r) (List.mem_cons_self _ _)
    have hwne : w ≠ [] := hw.1
    have hwc : ∀ c ∈ w, isWs c = false := hw.2
    rw [concatPairs_cons]
    unfold sub1
    have hhead : ∀ c, (w ++ r ++ concatPairs ps').head? = some c →
        (c = ' ' || c = '\t') = false := by
      intro c hc
      cases w with
      | nil => exact absurd rfl hwne
      | cons a as =>
        simp only [List.cons_append, List.head?_cons, Option.some.injEq] at hc
        subst hc
        exact nonWs_nonST (hwc a (List.mem_cons_self _ _))
    rw [show r0 ++ (w ++ r ++ concatPairs ps') = r0 ++ (w ++ (r ++ concatPairs ps'))
      by simp, sub1Go_append_nonST (by simpa using hhead) r0 false]
    rw [sub1Go_word w hwc]
    have hrest : sub1Go false (r ++ concatPairs ps')
        = sub1Go false r ++ concatPairs (ps'.map (fun p => (p.1, sub1 p.2))) := by
      cases hps' : ps' with
      | nil =>
        simp only [concatPairs, List.map_nil, List.flatten_nil, List.append_nil]
      | cons q qs =>
        obtain ⟨w', r'⟩ := q
        have hq := hwf (w', r') (by rw [hps']; exact List.mem_cons_of_mem _ (List.mem_cons_self _ _))
        have hq1 : w' ≠ [] := hq.1
        have hhead' : ∀ c, (concatPairs ((w', r') :: qs)).head? = some c →
            (c = ' ' || c = '\t') = false := by
          intro c hc
          cases hw' : w' with
          | nil => exact absurd hw' hq1
          | cons a as =>
            rw [concatPairs_cons, hw'] at hc
            simp only [List.cons_append, List.head?_cons, Option.some.injEq] at hc
            subst hc
            exact nonWs_nonST (hq.2 a (by rw [hw']; exact List.mem_cons_self _ _))
        rw [sub1Go_append_nonST hhead' r false]
        have h5 := ih [] (fun p hp => hwf p (List.mem_cons_of_mem _ hp))
        simp only [List.nil_append] at h5
        unfold sub1 at h5
        rw [hps'] at h5
        rw [h5]
        simp [sub1, sub1Go]
    rw [hrest]
    simp [concatPairs_cons, sub1]

theorem sub2Flush_nil : sub2Flush [] = [] := by
  simp [sub2Flush]

theorem sub2Go_run : ∀ (r : Str), (∀ c ∈ r, isWs c = true) →
    ∀ (acc rest : Str), sub2Go acc (r ++ rest) = sub2Go (acc ++ r) rest := by
  intro r
  induction r with
  | nil => intro _ acc rest; simp
  | cons d ds ih =>
    intro hr acc rest
    have hd : isWs d = true := hr d (List.mem_cons_self _ _)
    simp only [List.cons_append, sub2Go, hd, if_true, List.append_eq]
    rw [ih (fun c hc => hr c (List.mem_cons_of_mem _ hc)) (acc ++ [d]) rest]
    simp

theorem sub2Go_word : ∀ (w : Str), (∀ c ∈ w, isWs c = false) →
    ∀ (z : Str), sub2Go [] (w ++ z) = w ++ sub2Go [] z := by
  intro w
  induction w with
  | nil => intro _ z; rfl
  | cons d ds ih =>
    intro hw z
    have hd : isWs d = false := hw d (List.mem_cons_self _ _)
    simp only [List.cons_append, sub2Go, hd, Bool.false_eq_true, if_false,
      sub2Flush_nil, List.nil_append, List.append_eq]
    rw [ih (fun c hc => hw c (List.mem_cons_of_mem _ hc)) z]

theorem sub2Go_acc_word {w : Str} (hne : w ≠ [])
    (hw : ∀ c ∈ w, isWs c = false) (acc z : Str) :
    sub2Go acc (w ++ z) = sub2Flush acc ++ (w ++ sub2Go [] z) := by
  cases w with
  | nil => exact absurd rfl hne
  | cons a as =>
    have ha : isWs a = false := hw a (List.mem_cons_self _ _)
    simp only [List.cons_append, sub2Go, ha, Bool.false_eq_true, if_false, List.append_eq]
    rw [sub2Go_word as (fun c hc => hw c (List.mem_cons_of_mem _ hc)) z]

theorem sub2_decomp : ∀ (ps : List (Str × Str)) (r0 : Str),
    (∀ p ∈ ps, p.1 ≠ [] ∧ (∀ c ∈ p.1, isWs c = false)
      ∧ (∀ c ∈ p.2, isWs c = true)) →
    (∀ c ∈ r0, isWs c = true) →
    sub2 (r0 ++ concatPairs ps)
      = sub2Flush r0 ++ concatPairs (ps.map (fun p => (p.1, sub2Flush p.2))) := by
  intro ps
  induction ps with
  | nil =>
    intro r0 _ hr0
    unfold sub2
    rw [show r0 ++ concatPairs [] = r0 ++ [] by rfl]
    rw [sub2Go_run r0 hr0 [] []]
    simp [sub2Go, concatPairs]
  | cons p ps' ih =>
    intro r0 hwf hr0
    obtain ⟨w, r⟩ := p
    have hw := hwf (w, r) (List.mem_cons_self _ _)
    rw [concatPairs_cons]
    unfold sub2
    rw [show r0 ++ (w ++ r ++ concatPairs ps')
      = r0 ++ (w ++ (r ++ concatPairs ps')) by simp]
    rw [sub2Go_run r0 hr0 [] _, List.nil_append]
    rw [sub2Go_acc_word hw.1 hw.2.1 r0 _]
    have hrest : sub2Go [] (r ++ concatPairs ps')
        = sub2Flush r ++ concatPairs (ps'.map (fun p => (p.1, sub2Flush p.2))) := by
      have h5 := ih r (fun q hq => hwf q (List.mem_cons_of_mem _ hq)) hw.2.2
      unfold sub2 at h5
      exact h5
    rw [hrest]
    simp [concatPairs_cons]

theorem sub3Interior_nil : sub3Interior [] = [] := by
  simp [sub3Interior]

theorem sub3Go_run : ∀ (r : Str), (∀ c ∈ r, isWs c = true) →
    ∀ (f : Bool) (acc rest : Str),
    sub3Go f acc (r ++ rest) = sub3Go f (acc ++ r) rest := by
  intro r
  induction r with
  | nil => intro _ f acc rest; simp
  | cons d ds ih =>
    intro hr f acc rest
    have hd : isWs d = true := hr d (List.mem_cons_self _ _)
    simp only [List.cons_append, sub3Go, hd, if_true, List.append_eq]
    rw [ih (fun c hc => hr c (List.mem_cons_of_mem _ hc)) f (acc ++ [d]) rest]
    simp

theorem sub3Go_word : ∀ (w : Str), (∀ c ∈ w, isWs c = false) →
    ∀ (z : Str), sub3Go false [] (w ++ z) = w ++ sub3Go false [] z := by
  intro w
  induction w with
  | nil => intro _ z; rfl
  | cons d ds ih =>
    intro hw z
    have hd : isWs d = false := hw d (List.mem_cons_self _ _)
    simp only [List.cons_append, sub3Go, hd, Bool.false_eq_true, if_false,
      sub3Interior_nil, List.nil_append, List.append_eq]
    rw [ih (fun c hc => hw c (List.mem_cons_of_mem _ hc)) z]

theorem renderPs_cons_cons (sep : Str → Str) (w r : Str) (q : Str × Str)
    (qs : List (Str × Str)) :
    renderPs sep ((w, r) :: q :: qs) = w ++ sep r ++ renderPs sep (q :: qs) := by
  rfl

theorem sub3_pairs : ∀ (ps : List (Str × Str)),
    (∀ p ∈ ps, p.1 ≠ [] ∧ (∀ c ∈ p.1, isWs c = false)
      ∧ (∀ c ∈ p.2, isWs c = true)) →
    ∀ (acc : Str), sub3Go false acc (concatPairs ps)
      = if ps.isEmpty then [] else sub3Interior acc ++ renderPs sub3Interior ps := by
  intro ps
  induction ps with
  | nil => intro _ acc; simp [concatPairs, sub3Go]
  | cons p ps' ih =>
    intro hwf acc
    obtain ⟨w, r⟩ := p
    have hw := hwf (w, r) (List.mem_cons_self _ _)
    rw [concatPairs_cons]
    simp only [List.isEmpty_cons, Bool.false_eq_true, if_false]
    cases hww : w with
    | nil => exact absurd hww hw.1
    | cons a as =>
      have ha : isWs a = false := by
        apply hw.2.1
        rw [hww]
        exact List.mem_cons_self _ _
      simp only [List.cons_append, sub3Go, ha, Bool.false_eq_true, if_false, List.append_eq]
      rw [show as ++ r ++ concatPairs ps' = as ++ (r ++ concatPairs ps') by simp]
      rw [sub3Go_word as (fun c hc => by
        apply hw.2.1
        rw [hww]
        exact List.mem_cons_of_mem _ hc) _]
      rw [sub3Go_run r hw.2.2 false [] _, List.nil_append]
      rw [ih (fun q hq => hwf q (List.mem_cons_of_mem _ hq)) r]
      cases hps' : ps' with
      | nil =>
        simp only [List.isEmpty_nil, if_true]
        simp [renderPs]
      | cons q qs =>
        simp only [List.isEmpty_cons, Bool.false_eq_true, if_false]
        obtain ⟨w', r'⟩ := q
        rw [renderPs_cons_cons]
        simp

theorem sub3_decomp (ps : List (Str × Str)) (r0 : Str)
    (hwf : ∀ p ∈ ps, p.1 ≠ [] ∧ (∀ c ∈ p.1, isWs c = false)
      ∧ (∀ c ∈ p.2, isWs c = true))
    (hr0 : ∀ c ∈ r0, isWs c = true) :
    sub3 (r0 ++ concatPairs ps) = renderPs sub3Interior ps := by
  unfold sub3
  rw [sub3Go_run r0 hr0 true [] _, List.nil_append]
  cases hps : ps with
  | nil => simp [concatPairs, sub3Go, renderPs]
  | cons p ps' =>
    obtain ⟨w, r⟩ := p
    have hw := hwf (w, r) (by rw [hps]; exact List.mem_cons_self _ _)
    rw [concatPairs_cons]
    cases hww : w with
    | nil => exact absurd hww hw.1
    | cons a as =>
      have ha : isWs a = false := by
        apply hw.2.1
        rw [hww]
        exact List.mem_cons_self _ _
      simp only [List.cons_append, sub3Go, ha, Bool.false_eq_true, if_false,
        if_true, List.nil_append, List.append_eq]
      rw [show as ++ r ++ concatPairs ps' = as ++ (r ++ concatPairs ps') by simp]
      rw [sub3Go_word as (fun c hc => by
        apply hw.2.1
        rw [hww]
        exact List.mem_cons_of_mem _ hc) _]
      rw [sub3Go_run r hw.2.2 false [] _, List.nil_append]
      rw [sub3_pairs ps' (fun q hq => hwf q (by rw [hps]; exact List.mem_cons_of_mem _ hq)) r]
      cases hps' : ps' with
      | nil =>
        simp [renderPs]
      | cons q qs =>
        simp only [List.isEmpty_cons, Bool.false_eq_true, if_false]
        obtain ⟨w', r'⟩ := q
        rw [renderPs_cons_cons]
        simp

theorem dropWhile_append_all {p : Char → Bool} : ∀ (a b : Str),
    (∀ c ∈ a, p c = true) → (a ++ b).dropWhile p = b.dropWhile p := by
  intro a
  induction a with
  | nil => intro b _; rfl
  | cons x xs ih =>
    intro b h
    simp only [List.cons_append, List.dropWhile_cons,
      h x (List.mem_cons_self _ _), if_true]
    exact ih b (fun c hc => h c (List.mem_cons_of_mem _ hc))

theorem lastNlPrevIsNl_spec (z y : Str) (hy : '\n' ∉ y) :
    lastNlPrevIsNl (z ++ '\n' :: y) = decide (z.getLast? = some '\n') := by
  unfold lastNlPrevIsNl
  have h1 : (z ++ '\n' :: y).reverse = y.reverse ++ '\n' :: z.reverse := by
    simp
  rw [h1]
  rw [dropWhile_append_all y.reverse ('\n' :: z.reverse) (by
    intro c hc
    have : c ∈ y := List.mem_reverse.mp hc
    have : c ≠ '\n' := fun he => hy (he ▸ this)
    simpa using this)]
  simp [List.head?_reverse]

theorem count_sub1Go : ∀ (l : Str) (b : Bool),
    (sub1Go b l).count '\n' = l.count '\n' := by
  intro l
  induction l with
  | nil => intro b; rfl
  | cons c cs ih =>
    intro b
    by_cases hc : (c = ' ' || c = '\t') = true
    · have hcn : c ≠ '\n' := by
        rw [Bool.or_eq_true] at hc
        rcases hc with h | h <;>
          (rw [decide_eq_true_eq] at h; subst h; decide)
      simp only [sub1Go, hc, if_true, List.count_append, ih true]
      rcases Bool.eq_false_or_eq_true b with hb | hb <;> subst hb <;>
        simp [List.count_cons, hcn]
    · rw [Bool.not_eq_true] at hc
      simp only [sub1Go, hc, Bool.false_eq_true, if_false]
      rw [List.count_cons, List.count_cons, ih false]

theorem sub1_space_run : ∀ (sp : Str), (∀ c ∈ sp, c = ' ') →
    sub1Go false sp = (if sp.isEmpty then [] else [' ']) ∧ sub1Go true sp = [] := by
  intro sp
  induction sp with
  | nil => intro _; exact ⟨rfl, rfl⟩
  | cons c cs ih =>
    intro h
    have hc : c = ' ' := h c (List.mem_cons_self _ _)
    subst hc
    have ih' := ih (fun c hc => h c (List.mem_cons_of_mem _ hc))
    constructor
    · simp only [sub1Go, List.isEmpty_cons]
      norm_num
      exact ih'.2
    · simp only [sub1Go]
      norm_num
      exact ih'.2

theorem split_first_nl : ∀ {r : Str}, '\n' ∈ r →
    ∃ A B, r = A ++ '\n' :: B ∧ '\n' ∉ A := by
  intro r
  induction r with
  | nil => intro h; simp at h
  | cons c cs ih =>
    intro h
    by_cases hc : c = '\n'
    · subst hc
      exact ⟨[], cs, rfl, by simp⟩
    · have : '\n' ∈ cs := by
        rcases List.mem_cons.mp h with h1 | h1
        · exact absurd h1.symm hc
        · exact h1
      obtain ⟨A, B, hAB, hA⟩ := ih this
      exact ⟨c :: A, B, by rw [hAB]; rfl, by
        intro hm
        rcases List.mem_cons.mp hm with h1 | h1
        · exact hc h1.symm
        · exact hA h1⟩

theorem count_split (A B : Str) (hA : '\n' ∉ A) :
    (A ++ '\n' :: B).count '\n' = B.count '\n' + 1 := by
  rw [List.count_append, List.count_cons]
  rw [List.count_eq_zero.mpr hA]
  simp

theorem nl_not_mem_spaceopt (b : Bool) : '\n' ∉ (if b then ([] : Str) else [' ']) := by
  rcases Bool.eq_false_or_eq_true b with hb | hb <;> subst hb <;> decide

theorem getLast_spaceopt_ne (b : Bool) (A : Str) :
    decide ((A ++ '\n' :: (if b then ([] : Str) else [' '])).getLast? = some '\n')
      = decide (b = true) := by
  cases b with
  | false =>
    rw [show (if false = true then ([] : Str) else [' ']) = [' '] from rfl,
      List.getLast?_append_cons]
    decide
  | true =>
    rw [show (if true = true then ([] : Str) else [' ']) = ([] : Str) from rfl,
      List.getLast?_append_cons]
    decide

/-- The combined effect of the three whitespace substitutions on one
interior whitespace run of spaces and newlines is `wsSep`. -/
theorem wsSep_eq (r : Str) (hr : ∀ c ∈ r, tameWs c = true) :
    sub3Interior (sub2Flush (sub1 r)) = wsSep r := by
  have hspace : ∀ c ∈ r, c ≠ '\n' → c = ' ' := by
    intro c hc hne
    have := hr c hc
    rw [tameWs, Bool.or_eq_true, decide_eq_true_eq, decide_eq_true_eq] at this
    rcases this with h | h
    · exact h
    · exact absurd h hne
  by_cases h0 : r.count '\n' = 0
  · have hsp : ∀ c ∈ r, c = ' ' := by
      intro c hc
      exact hspace c hc (fun he => (List.count_eq_zero.mp h0) (he ▸ hc))
    have h1 : sub1 r = if r.isEmpty then [] else [' '] :=
      (sub1_space_run r hsp).1
    unfold wsSep
    rw [if_pos h0, h1]
    by_cases hre : r.isEmpty
    · rw [if_pos hre]; decide
    · rw [if_neg hre]; decide
  · have hmem : '\n' ∈ r := by
      by_contra hm
      exact h0 (List.count_eq_zero.mpr hm)
    obtain ⟨A, B, hAB, hA⟩ := split_first_nl hmem
    have hAsp : ∀ c ∈ A, c = ' ' := fun c hc =>
      hspace c (by rw [hAB]; exact List.mem_append_left _ hc)
        (fun he => hA (he ▸ hc))
    have hcount : r.count '\n' = B.count '\n' + 1 := by
      rw [hAB]; exact count_split A B hA
    have hsub1A : sub1 r
        = (if A.isEmpty then [] else [' ']) ++ '\n' :: sub1Go false B := by
      unfold sub1
      rw [hAB, sub1Go_append_nonST (y := '\n' :: B) (by intro c hc; simp at hc; subst hc; decide) A false]
      rw [(sub1_space_run A hAsp).1]
      simp [sub1Go]
    by_cases h1 : r.count '\n' = 1
    · have hB0 : B.count '\n' = 0 := by omega
      have hBsp : ∀ c ∈ B, c = ' ' := by
        intro c hc
        exact hspace c (by rw [hAB]; exact List.mem_append_right _ (List.mem_cons_of_mem _ hc))
          (fun he => (List.count_eq_zero.mp hB0) (he ▸ hc))
      have hsub1 : sub1 r = (if A.isEmpty then [] else [' '])
          ++ '\n' :: (if B.isEmpty then [] else [' ']) := by
        rw [hsub1A, (sub1_space_run B hBsp).1]
      have hcnt1 : (sub1 r).count '\n' = 1 := by
        unfold sub1
        rw [count_sub1Go, h1]
      unfold sub2Flush
      rw [if_neg (by rw [hcnt1]; omega)]
      unfold sub3Interior
      rw [if_neg (by rw [hcnt1]; omega)]
      rw [hsub1, lastNlPrevIsNl_spec _ _ (nl_not_mem_spaceopt _)]
      have hglf : decide
          (((if A.isEmpty then ([] : Str) else [' ']) : Str).getLast?
            = some '\n') = false := by
        rcases Bool.eq_false_or_eq_true A.isEmpty with hb | hb <;> rw [hb] <;>
          decide
      rw [hglf]
      unfold wsSep
      rw [if_neg h0, if_pos h1]
      simp
    · by_cases h3 : 3 ≤ r.count '\n'
      · -- the long-run case: sub2Flush rewrites the run
        have hcnt : (sub1 r).count '\n' = r.count '\n' := by
          unfold sub1; exact count_sub1Go r false
        unfold sub2Flush
        rw [if_pos (by rw [hcnt]; omega)]
        set pre := (sub1 r).takeWhile (fun d => d != '\n') with hpre
        set post := ((sub1 r).reverse.takeWhile (fun d => d != '\n')).reverse
          with hpost
        have hprenl : '\n' ∉ pre := by
          intro hm
          have := List.mem_takeWhile_imp hm
          simp at this
        have hpostnl : '\n' ∉ post := by
          intro hm
          have := List.mem_takeWhile_imp (List.mem_reverse.mp hm)
          simp at this
        have hform : pre ++ '\n' :: '\n' :: post
            = (pre ++ ['\n']) ++ '\n' :: post := by simp
        unfold sub3Interior
        rw [hform, lastNlPrevIsNl_spec _ _ hpostnl]
        rw [List.getLast?_append_cons]
        have hc2 : ((pre ++ ['\n']) ++ '\n' :: post).count '\n' = 2 := by
          rw [List.count_append, List.count_append, List.count_cons,
            List.count_cons,
            List.count_eq_zero.mpr hprenl, List.count_eq_zero.mpr hpostnl]
          decide
        rw [if_neg (by rw [hc2]; omega)]
        unfold wsSep
        rw [if_neg h0, if_neg h1, if_pos h3]
        simp
      · have h2 : r.count '\n' = 2 := by omega
        have hB1 : B.count '\n' = 1 := by omega
        have hmemB : '\n' ∈ B := by
          by_contra hm
          rw [List.count_eq_zero.mpr hm] at hB1
          omega
        obtain ⟨A2, B2, hA2B2, hA2⟩ := split_first_nl hmemB
        have hB20 : B2.count '\n' = 0 := by
          rw [hA2B2, count_split A2 B2 hA2] at hB1
          omega
        have hA2sp : ∀ c ∈ A2, c = ' ' := by
          intro c hc
          refine hspace c ?_ (fun he => hA2 (he ▸ hc))
          rw [hAB, hA2B2]
          exact List.mem_append_right _ (List.mem_cons_of_mem _
            (List.mem_append_left _ hc))
        have hB2sp : ∀ c ∈ B2, c = ' ' := by
          intro c hc
          refine hspace c ?_ (fun he => (List.count_eq_zero.mp hB20) (he ▸ hc))
          rw [hAB, hA2B2]
          exact List.mem_append_right _ (List.mem_cons_of_mem _
            (List.mem_append_right _ (List.mem_cons_of_mem _ hc)))
        have hsub1 : sub1 r = (if A.isEmpty then [] else [' '])
            ++ '\n' :: ((if A2.isEmpty then [] else [' '])
              ++ '\n' :: (if B2.isEmpty then [] else [' '])) := by
          rw [hsub1A, hA2B2]
          rw [sub1Go_append_nonST (y := '\n' :: B2) (by intro c hc; simp at hc; subst hc; decide) A2 false]
          rw [(sub1_space_run A2 hA2sp).1]
          have : sub1Go false ('\n' :: B2) = '\n' :: sub1Go false B2 := by
            simp [sub1Go]
          rw [this, (sub1_space_run B2 hB2sp).1]
        have hcnt : (sub1 r).count '\n' = 2 := by
          unfold sub1
          rw [count_sub1Go, h2]
        unfold sub2Flush
        rw [if_neg (by rw [hcnt]; omega)]
        unfold sub3Interior
        rw [if_neg (by rw [hcnt]; omega)]
        have hform : (if A.isEmpty then ([] : Str) else [' '])
            ++ '\n' :: ((if A2.isEmpty then ([] : Str) else [' '])
              ++ '\n' :: (if B2.isEmpty then [] else [' ']))
            = ((if A.isEmpty then ([] : Str) else [' '])
                ++ '\n' :: (if A2.isEmpty then ([] : Str) else [' ']))
              ++ '\n' :: (if B2.isEmpty then [] else [' ']) := by
          simp
        rw [hsub1, hform, lastNlPrevIsNl_spec _ _ (nl_not_mem_spaceopt _)]
        rw [getLast_spaceopt_ne]
        have hformr : r = (A ++ '\n' :: A2) ++ '\n' :: B2 := by
          rw [hAB, hA2B2]; simp
        have hB2nl : '\n' ∉ B2 := List.count_eq_zero.mp hB20
        unfold wsSep
        rw [if_neg h0, if_neg h1, if_neg h3]
        rw [hformr, lastNlPrevIsNl_spec _ _ hB2nl]
        by_cases hA2e : A2.isEmpty
        · have hA2nil : A2 = [] := List.isEmpty_iff.mp hA2e
          subst hA2nil
          rw [List.getLast?_append_cons]
          rw [hA2e]
          simp
        · have hA2cons : A2 ≠ [] := fun h => hA2e (by rw [h]; rfl)
          have hA2f : A2.isEmpty = false := by simpa using hA2e
          rw [List.getLast?_append_cons]
          rw [hA2f]
          have : ('\n' :: A2).getLast? = A2.getLast? := by
            cases A2 with
            | nil => exact absurd rfl hA2cons
            | cons x xs => rw [List.getLast?_cons_cons]
          rw [this]
          cases hL : A2.getLast? with
          | none =>
            exact absurd (List.getLast?_eq_none_iff.mp hL) hA2cons
          | some c =>
            have hcmem : c ∈ A2 := List.mem_of_getLast?_eq_some hL
            have : c = ' ' := hA2sp c hcmem
            subst this
            simp

/-! ## Idempotence of the whitespace normalization -/

theorem noTab_sub1Go : ∀ (b : Bool) (l : Str), '\t' ∉ sub1Go b l := by
  intro b l
  induction l generalizing b with
  | nil => simp [sub1Go]
  | cons d ds ih =>
    simp only [sub1Go]
    by_cases hd : (d = ' ' || d = '\t') = true
    · rw [if_pos hd]
      intro hm
      rcases List.mem_append.mp hm with h1 | h1
      · rcases Bool.eq_false_or_eq_true b with hb | hb <;> rw [hb] at h1 <;>
          simp at h1
      · exact ih true h1
    · rw [if_neg hd]
      intro hm
      rcases List.mem_cons.mp hm with h1 | h1
      · subst h1
        exact hd (by decide)
      · exact ih false h1

theorem sub1Go_chain : ∀ (l : Str) (b : Bool),
    List.Chain' (fun a d : Char => ¬(a = ' ' ∧ d = ' ')) (sub1Go b l) ∧
      (b = true → ∀ x, (sub1Go b l).head? = some x → x ≠ ' ') := by
  intro l
  induction l with
  | nil =>
    intro b
    exact ⟨List.chain'_nil, by intro _ x hx; simp [sub1Go] at hx⟩
  | cons d ds ih =>
    intro b
    simp only [sub1Go]
    by_cases hd : (d = ' ' || d = '\t') = true
    · rw [if_pos hd]
      rcases Bool.eq_false_or_eq_true b with hb | hb <;> subst hb
      · constructor
        · rw [show (if true = true then ([] : Str) else [' ']) ++ sub1Go true ds
            = sub1Go true ds from rfl]
          exact (ih true).1
        · intro _
          rw [show (if true = true then ([] : Str) else [' ']) ++ sub1Go true ds
            = sub1Go true ds from rfl]
          exact (ih true).2 rfl
      · constructor
        · rw [show (if false = true then ([] : Str) else [' ']) ++ sub1Go true ds
            = ' ' :: sub1Go true ds from rfl]
          rw [List.chain'_cons']
          refine ⟨?_, (ih true).1⟩
          intro y hy
          intro hcon
          exact (ih true).2 rfl y hy hcon.2
        · intro hfalse
          cases hfalse
    · rw [if_neg hd]
      have hdsp : d ≠ ' ' := by
        intro h
        exact hd (by rw [h]; decide)
      constructor
      · rw [List.chain'_cons']
        refine ⟨?_, (ih false).1⟩
        intro y _
        intro hcon
        exact hdsp hcon.1
      · intro _ x hx
        simp only [List.head?_cons, Option.some.injEq] at hx
        subst hx
        exact hdsp

theorem sub1Go_fix : ∀ (s : Str), '\t' ∉ s →
    List.Chain' (fun a d : Char => ¬(a = ' ' ∧ d = ' ')) s →
    sub1Go false s = s ∧ (s.head? ≠ some ' ' → sub1Go true s = s) := by
  intro s
  induction s with
  | nil => intro _ _; exact ⟨rfl, fun _ => rfl⟩
  | cons d ds ih =>
    intro ht hch
    have htds : '\t' ∉ ds := fun h => ht (List.mem_cons_of_mem _ h)
    have hchds := (List.chain'_cons'.mp hch).2
    have hds := ih htds hchds
    by_cases hd : d = ' '
    · subst hd
      have hh : ds.head? ≠ some ' ' := by
        intro hsome
        exact (List.chain'_cons'.mp hch).1 ' ' hsome ⟨rfl, rfl⟩
      constructor
      · show sub1Go false (' ' :: ds) = ' ' :: ds
        simp only [sub1Go]
        rw [if_pos (by decide)]
        rw [show (if false = true then ([] : Str) else [' ']) ++ sub1Go true ds
          = ' ' :: sub1Go true ds from rfl]
        rw [hds.2 hh]
      · intro hne
        exact absurd rfl hne
    · have hdt : d ≠ '\t' := fun h => ht (h ▸ List.mem_cons_self _ _)
      have hcond : (d = ' ' || d = '\t') = false := by
        rw [Bool.or_eq_false_iff]
        exact ⟨decide_eq_false hd, decide_eq_false hdt⟩
      have hboth : ∀ b, sub1Go b (d :: ds) = d :: ds := by
        intro b
        simp only [sub1Go, hcond, Bool.false_eq_true, if_false]
        rw [hds.1]
      exact ⟨hboth false, fun _ => hboth true⟩

theorem sub1_idem (s : Str) : sub1 (sub1 s) = sub1 s := by
  unfold sub1
  exact (sub1Go_fix (sub1Go false s) (noTab_sub1Go false s)
    (sub1Go_chain s false).1).1

theorem sepFn_cases (r : Str) :
    sepFn r = [] ∨ sepFn r = ['\n'] ∨
      (sepFn r = sub1 r ∧ (sub1 r).count '\n' = 0) := by
  unfold sepFn
  by_cases h3 : 3 ≤ (sub1 r).count '\n'
  · unfold sub2Flush
    rw [if_pos h3]
    unfold sub3Interior
    rw [if_neg (by
      simp only [List.count_append, List.count_cons, beq_self_eq_true,
        if_true]
      omega)]
    by_cases hl : lastNlPrevIsNl ((sub1 r).takeWhile (fun d => d != '\n')
        ++ '\n' :: '\n' :: ((sub1 r).reverse.takeWhile (fun d => d != '\n')).reverse) = true
    · rw [if_pos hl]
      exact Or.inl rfl
    · rw [if_neg hl]
      exact Or.inr (Or.inl rfl)
  · unfold sub2Flush
    rw [if_neg h3]
    unfold sub3Interior
    by_cases h0 : (sub1 r).count '\n' = 0
    · rw [if_pos h0]
      exact Or.inr (Or.inr ⟨rfl, h0⟩)
    · rw [if_neg h0]
      by_cases hl : lastNlPrevIsNl (sub1 r) = true
      · rw [if_pos hl]
        exact Or.inl rfl
      · rw [if_neg hl]
        exact Or.inr (Or.inl rfl)

theorem sepFn_idem (r : Str) : sepFn (sepFn r) = sepFn r := by
  rcases sepFn_cases r with h | h | ⟨h, hc⟩
  · rw [h]; decide
  · rw [h]; decide
  · rw [h]
    unfold sepFn
    rw [sub1_idem]
    unfold sub2Flush
    rw [if_neg (by rw [hc]; omega)]
    unfold sub3Interior
    rw [if_pos hc]

theorem mem_sepFn {c : Char} {r : Str} (h : c ∈ sepFn r) :
    c = ' ' ∨ c = '\n' ∨ c ∈ r := by
  unfold sepFn at h
  rcases mem_sub3Interior h with h1 | h1
  · exact Or.inr (Or.inl h1)
  · rcases mem_sub2Flush h1 with h2 | h2
    · exact Or.inr (Or.inl h2)
    · rcases mem_sub1Go h2 with h3 | h3
      · exact Or.inl h3
      · exact Or.inr (Or.inr h3)

theorem head_dropWhile_not (p : Char → Bool) : ∀ (l : Str) (x : Char),
    (l.dropWhile p).head? = some x → p x = false := by
  intro l
  induction l with
  | nil => intro x hx; simp at hx
  | cons c cs ih =>
    intro x hx
    rw [List.dropWhile_cons] at hx
    by_cases hc : p c = true
    · rw [if_pos hc] at hx
      exact ih x hx
    · rw [if_neg hc] at hx
      simp only [List.head?_cons, Option.some.injEq] at hx
      subst hx
      exact Bool.eq_false_iff.mpr hc

theorem decompRest_len (c : Char) (cs : Str) :
    (((c :: cs).dropWhile (fun d => !isWs d)).dropWhile isWs).length
      ≤ cs.length := by
  by_cases h : isWs c = true
  · rw [show (c :: cs).dropWhile (fun d => !isWs d) = c :: cs by
      simp [List.dropWhile_cons, h]]
    rw [show (c :: cs).dropWhile isWs = cs.dropWhile isWs by
      simp [List.dropWhile_cons, h]]
    exact (List.dropWhile_sublist _).length_le
  · rw [show (c :: cs).dropWhile (fun d => !isWs d)
        = cs.dropWhile (fun d => !isWs d) by
      simp [List.dropWhile_cons, h]]
    exact le_trans (List.dropWhile_sublist _).length_le
      (List.dropWhile_sublist _).length_le

theorem concat_decompPairs : ∀ (n : Nat) (s : Str), s.length ≤ n →
    concatPairs (decompPairs s) = s := by
  intro n
  induction n with
  | zero =>
    intro s hs
    have h : s = [] := List.eq_nil_of_length_eq_zero (Nat.le_zero.mp hs)
    subst h
    simp [decompPairs, concatPairs]
  | succ n ih =>
    intro s hs
    cases s with
    | nil => simp [decompPairs, concatPairs]
    | cons c cs =>
      simp only [decompPairs]
      rw [concatPairs_cons]
      rw [ih _ (le_trans (decompRest_len c cs)
        (by simpa using Nat.succ_le_succ_iff.mp hs))]
      rw [List.append_assoc, List.takeWhile_append_dropWhile,
        List.takeWhile_append_dropWhile]

theorem decompPairs_wf : ∀ (n : Nat) (s : Str), s.length ≤ n →
    (∀ x, s.head? = some x → isWs x = false) →
    ∀ p ∈ decompPairs s, p.1 ≠ [] ∧ (∀ c ∈ p.1, isWs c = false)
      ∧ (∀ c ∈ p.2, isWs c = true) := by
  intro n
  induction n with
  | zero =>
    intro s hs _ p hp
    have h : s = [] := List.eq_nil_of_length_eq_zero (Nat.le_zero.mp hs)
    subst h
    simp [decompPairs] at hp
  | succ n ih =>
    intro s hs hh p hp
    cases s with
    | nil => simp [decompPairs] at hp
    | cons c cs =>
      have hc : isWs c = false := hh c rfl
      simp only [decompPairs] at hp
      rcases List.mem_cons.mp hp with h1 | h1
      · subst h1
        refine ⟨?_, ?_, ?_⟩
        · rw [List.takeWhile_cons, if_pos (by simp [hc])]
          simp
        · intro a ha
          have := List.mem_takeWhile_imp ha
          simpa using this
        · intro a ha
          exact List.mem_takeWhile_imp ha
      · exact ih _ (le_trans (decompRest_len c cs)
          (by simpa using Nat.succ_le_succ_iff.mp hs))
          (fun x hx => head_dropWhile_not isWs _ x hx) p h1

theorem renderPs_map (sep : Str → Str) (f : Str → Str) :
    ∀ (ps : List (Str × Str)),
    renderPs sep (ps.map (fun p => (p.1, f p.2)))
      = renderPs (fun r => sep (f r)) ps := by
  intro ps
  induction ps with
  | nil => rfl
  | cons p ps ih =>
    cases ps with
    | nil => rfl
    | cons q qs =>
      obtain ⟨w, r⟩ := p
      obtain ⟨w', r'⟩ := q
      simp only [List.map_cons]
      rw [renderPs_cons_cons, renderPs_cons_cons]
      simp only [List.map_cons] at ih
      rw [ih]

theorem head_renderPs (sep : Str → Str) (w r : Str) (ps : List (Str × Str))
    (hw : w ≠ []) :
    (renderPs sep ((w, r) :: ps)).head? = w.head? := by
  cases ps with
  | nil => rfl
  | cons q qs =>
    rw [renderPs_cons_cons]
    cases w with
    | nil => exact absurd rfl hw
    | cons a as => simp

theorem renderPs_cons_ne_nil (sep : Str → Str) (w r : Str)
    (ps : List (Str × Str)) (hw : w ≠ []) :
    renderPs sep ((w, r) :: ps) ≠ [] := by
  intro h
  have h2 := head_renderPs sep w r ps hw
  rw [h] at h2
  cases hww : w with
  | nil => exact hw hww
  | cons a as =>
    rw [hww] at h2
    simp at h2

theorem getLast_renderPs (sep : Str → Str) : ∀ (ps : List (Str × Str)),
    (∀ p ∈ ps, p.1 ≠ []) →
    ∀ x, (renderPs sep ps).getLast? = some x → ∃ p ∈ ps, x ∈ p.1 := by
  intro ps
  induction ps with
  | nil =>
    intro _ x hx
    simp [renderPs] at hx
  | cons p ps ih =>
    intro hw x hx
    obtain ⟨w, r⟩ := p
    cases ps with
    | nil =>
      exact ⟨(w, r), List.mem_cons_self _ _,
        List.mem_of_getLast?_eq_some hx⟩
    | cons q qs =>
      rw [renderPs_cons_cons, List.append_assoc] at hx
      have hne : renderPs sep (q :: qs) ≠ [] := by
        obtain ⟨w', r'⟩ := q
        exact renderPs_cons_ne_nil sep w' r' qs
          (hw (w', r') (List.mem_cons_of_mem _ (List.mem_cons_self _ _)))
      rw [List.getLast?_append_of_ne_nil w
        (fun hcon => hne (List.append_eq_nil.mp hcon).2)] at hx
      rw [List.getLast?_append_of_ne_nil (sep r) hne] at hx
      obtain ⟨p2, hp2, hxp2⟩ :=
        ih (fun a ha => hw a (List.mem_cons_of_mem _ ha)) x hx
      exact ⟨p2, List.mem_cons_of_mem _ hp2, hxp2⟩

theorem pyStrip_eq_self {s : Str}
    (h1 : ∀ x, s.head? = some x → isWs x = false)
    (h2 : ∀ x, s.getLast? = some x → isWs x = false) :
    pyStrip s = s := by
  unfold pyStrip
  have hd : s.dropWhile isPyStripWs = s := by
    cases s with
    | nil => rfl
    | cons c cs =>
      rw [List.dropWhile_cons, if_neg (by
        intro hcon
        rw [show isPyStripWs c = isWs c from rfl, h1 c rfl] at hcon
        cases hcon)]
  rw [hd]
  have hrev : s.reverse.dropWhile isPyStripWs = s.reverse := by
    cases hr : s.reverse with
    | nil => rfl
    | cons c cs =>
      rw [List.dropWhile_cons, if_neg (by
        intro hcon
        have hlast : s.getLast? = some c := by
          rw [← List.head?_reverse, hr, List.head?_cons]
        rw [show isPyStripWs c = isWs c from rfl, h2 c hlast] at hcon
        cases hcon)]
  rw [hrev, List.reverse_reverse]

theorem postprocess_decomp (ps : List (Str × Str)) (r0 : Str)
    (hwf : ∀ p ∈ ps, p.1 ≠ [] ∧ (∀ c ∈ p.1, isWs c = false)
      ∧ (∀ c ∈ p.2, isWs c = true))
    (hr0 : ∀ c ∈ r0, isWs c = true) :
    postprocess (r0 ++ concatPairs ps) = renderPs sepFn ps := by
  unfold postprocess
  rw [sub1_decomp ps r0 (fun p hp => ⟨(hwf p hp).1, (hwf p hp).2.1⟩)]
  rw [sub2_decomp (ps.map fun p => (p.1, sub1 p.2)) (sub1 r0)
    (by
      intro p hp
      obtain ⟨q, hq, rfl⟩ := List.mem_map.mp hp
      refine ⟨(hwf q hq).1, (hwf q hq).2.1, ?_⟩
      intro c hc
      rcases mem_sub1Go hc with h | h
      · rw [h]; decide
      · exact (hwf q hq).2.2 c h)
    (by
      intro c hc
      rcases mem_sub1Go hc with h | h
      · rw [h]; decide
      · exact hr0 c h)]
  rw [sub3_decomp ((ps.map fun p => (p.1, sub1 p.2)).map
      fun p => (p.1, sub2Flush p.2)) (sub2Flush (sub1 r0))
    (by
      intro p hp
      obtain ⟨q', hq', rfl⟩ := List.mem_map.mp hp
      obtain ⟨q, hq, rfl⟩ := List.mem_map.mp hq'
      refine ⟨(hwf q hq).1, (hwf q hq).2.1, ?_⟩
      intro c hc
      rcases mem_sub2Flush hc with h | h
      · rw [h]; decide
      · rcases mem_sub1Go h with h2 | h2
        · rw [h2]; decide
        · exact (hwf q hq).2.2 c h2)
    (by
      intro c hc
      rcases mem_sub2Flush hc with h | h
      · rw [h]; decide
      · rcases mem_sub1Go h with h2 | h2
        · rw [h2]; decide
        · exact hr0 c h2)]
  rw [List.map_map]
  rw [show ((fun p : Str × Str => (p.1, sub2Flush p.2))
      ∘ fun p : Str × Str => (p.1, sub1 p.2))
    = fun p : Str × Str => (p.1, sub2Flush (sub1 p.2)) from rfl]
  rw [renderPs_map sub3Interior (fun r => sub2Flush (sub1 r)) ps]
  rw [show (fun r => sub3Interior (sub2Flush (sub1 r))) = sepFn from rfl]
  cases hps : ps with
  | nil => simp [renderPs, pyStrip]
  | cons p t =>
    obtain ⟨w, r⟩ := p
    have hwp := hwf (w, r) (by rw [hps]; exact List.mem_cons_self _ _)
    apply pyStrip_eq_self
    · intro x hx
      rw [head_renderPs sepFn w r t hwp.1] at hx
      cases hww : w with
      | nil => exact absurd hww hwp.1
      | cons a as =>
        rw [hww, List.head?_cons] at hx
        injection hx with hx
        subst hx
        exact hwp.2.1 a (by rw [hww]; exact List.mem_cons_self _ _)
    · intro x hx
      obtain ⟨p2, hp2, hxp2⟩ := getLast_renderPs sepFn ((w, r) :: t)
        (fun a ha => (hwf a (hps ▸ ha)).1) x hx
      exact (hwf p2 (hps ▸ hp2)).2.1 x hxp2

theorem mergeSep_ne_nil (sep : Str → Str) (a : Str × Str) :
    ∀ (t : List (Str × Str)), mergeSep sep (a :: t) ≠ [] := by
  obtain ⟨w, r⟩ := a
  intro t
  cases t with
  | nil => simp [mergeSep]
  | cons q qs =>
    simp only [mergeSep]
    split
    · simp
    · next w' r' ms hm =>
      by_cases hsep : sep r = []
      · rw [if_pos hsep]
        simp
      · rw [if_neg hsep]
        simp

theorem mergeSep_render (sep : Str → Str) : ∀ (ps : List (Str × Str)),
    concatPairs (mergeSep sep ps) = renderPs sep ps := by
  intro ps
  induction ps with
  | nil => rfl
  | cons p t ih =>
    obtain ⟨w, r⟩ := p
    cases t with
    | nil =>
      show concatPairs [(w, [])] = renderPs sep [(w, r)]
      simp [concatPairs, renderPs]
    | cons q qs =>
      rw [renderPs_cons_cons]
      simp only [mergeSep]
      split
      · next hm =>
        exact absurd hm (mergeSep_ne_nil sep q qs)
      · next w' r' ms hm =>
        rw [hm] at ih
        by_cases hsep : sep r = []
        · rw [if_pos hsep, hsep]
          rw [← ih]
          simp [concatPairs]
        · rw [if_neg hsep]
          rw [← ih]
          simp [concatPairs]

theorem mergeSep_last (sep : Str → Str) : ∀ (ps : List (Str × Str)) (p : Str × Str),
    (mergeSep sep ps).getLast? = some p → p.2 = [] := by
  intro ps
  induction ps with
  | nil =>
    intro p hp
    simp [mergeSep] at hp
  | cons a t ih =>
    obtain ⟨w, r⟩ := a
    cases t with
    | nil =>
      intro p hp
      simp only [mergeSep, List.getLast?_singleton, Option.some.injEq] at hp
      rw [← hp]
    | cons q qs =>
      intro p hp
      simp only [mergeSep] at hp
      split at hp
      · next hm =>
        exact absurd hm (mergeSep_ne_nil sep q qs)
      · next w' r' ms hm =>
        by_cases hsep : sep r = []
        · rw [if_pos hsep] at hp
          cases hms : ms with
          | nil =>
            have hr' : r' = [] :=
              ih (w', r') (by rw [hm, hms, List.getLast?_singleton])
            rw [hms, List.getLast?_singleton, Option.some.injEq] at hp
            rw [← hp]
            exact hr'
          | cons b bs =>
            rw [hms, List.getLast?_cons_cons] at hp
            exact ih p (by rw [hm, hms, List.getLast?_cons_cons]; exact hp)
        · rw [if_neg hsep, List.getLast?_cons_cons] at hp
          exact ih p (by rw [hm]; exact hp)

theorem mergeSep_runs : ∀ (ps : List (Str × Str)) (p : Str × Str),
    p ∈ mergeSep sepFn ps → sepFn p.2 = p.2 := by
  intro ps
  induction ps with
  | nil =>
    intro p hp
    simp [mergeSep] at hp
  | cons a t ih =>
    obtain ⟨w, r⟩ := a
    cases t with
    | nil =>
      intro p hp
      simp only [mergeSep, List.mem_singleton] at hp
      rw [hp]
      show sepFn ([] : Str) = ([] : Str)
      decide
    | cons q qs =>
      intro p hp
      simp only [mergeSep] at hp
      split at hp
      · next hm =>
        exact absurd hm (mergeSep_ne_nil sepFn q qs)
      · next w' r' ms hm =>
        have hmem : ∀ y ∈ (w', r') :: ms, sepFn y.2 = y.2 := by
          intro y hy
          exact ih y (by rw [hm]; exact hy)
        by_cases hsep : sepFn r = []
        · rw [if_pos hsep] at hp
          rcases List.mem_cons.mp hp with h | h
          · rw [h]
            exact hmem (w', r') (List.mem_cons_self _ _)
          · exact hmem p (List.mem_cons_of_mem _ h)
        · rw [if_neg hsep] at hp
          rcases List.mem_cons.mp hp with h | h
          · rw [h]
            exact sepFn_idem r
          · exact hmem p h

theorem mergeSep_words (sep : Str → Str) : ∀ (ps : List (Str × Str)),
    (∀ p ∈ ps, p.1 ≠ [] ∧ (∀ c ∈ p.1, isWs c = false)) →
    ∀ p ∈ mergeSep sep ps, p.1 ≠ [] ∧ (∀ c ∈ p.1, isWs c = false) := by
  intro ps
  induction ps with
  | nil =>
    intro _ p hp
    simp [mergeSep] at hp
  | cons a t ih =>
    obtain ⟨w, r⟩ := a
    intro hw
    have hwa := hw (w, r) (List.mem_cons_self _ _)
    cases t with
    | nil =>
      intro p hp
      simp only [mergeSep, List.mem_singleton] at hp
      rw [hp]
      exact ⟨hwa.1, hwa.2⟩
    | cons q qs =>
      intro p hp
      simp only [mergeSep] at hp
      have hmem := ih (fun y hy => hw y (List.mem_cons_of_mem _ hy))
      split at hp
      · next hm =>
        exact absurd hm (mergeSep_ne_nil sep q qs)
      · next w' r' ms hm =>
        have hw' := hmem (w', r') (by rw [hm]; exact List.mem_cons_self _ _)
        by_cases hsep : sep r = []
        · rw [if_pos hsep] at hp
          rcases List.mem_cons.mp hp with h | h
          · rw [h]
            constructor
            · intro hcon
              exact hwa.1 (List.append_eq_nil.mp hcon).1
            · intro c hc
              rcases List.mem_append.mp hc with h2 | h2
              · exact hwa.2 c h2
              · exact hw'.2 c h2
          · exact hmem p (by rw [hm]; exact List.mem_cons_of_mem _ h)
      
        · rw [if_neg hsep] at hp
          rcases List.mem_cons.mp hp with h | h
          · rw [h]
            exact ⟨hwa.1, hwa.2⟩
          · exact hmem p (by rw [hm]; exact h)

theorem mergeSep_runs_ws : ∀ (ps : List (Str × Str)),
    (∀ p ∈ ps, ∀ c ∈ p.2, isWs c = true) →
    ∀ p ∈ mergeSep sepFn ps, ∀ c ∈ p.2, isWs c = true := by
  intro ps
  induction ps with
  | nil =>
    intro _ p hp
    simp [mergeSep] at hp
  | cons a t ih =>
    obtain ⟨w, r⟩ := a
    intro hr
    have hra := hr (w, r) (List.mem_cons_self _ _)
    cases t with
    | nil =>
      intro p hp
      simp only [mergeSep, List.mem_singleton] at hp
      rw [hp]
      intro c hc
      cases hc
    | cons q qs =>
      intro p hp
      simp only [mergeSep] at hp
      have hmem := ih (fun y hy => hr y (List.mem_cons_of_mem _ hy))
      split at hp
      · next hm =>
        exact absurd hm (mergeSep_ne_nil sepFn q qs)
      · next w' r' ms hm =>
        by_cases hsep : sepFn r = []
        · rw [if_pos hsep] at hp
          rcases List.mem_cons.mp hp with h | h
          · rw [h]
            exact hmem (w', r') (by rw [hm]; exact List.mem_cons_self _ _)
          · exact hmem p (by rw [hm]; exact List.mem_cons_of_mem _ h)
        · rw [if_neg hsep] at hp
          rcases List.mem_cons.mp hp with h | h
          · rw [h]
            intro c hc
            rcases mem_sepFn hc with h2 | h2 | h2
            · rw [h2]; decide
            · rw [h2]; decide
            · exact hra c h2
          · exact hmem p (by rw [hm]; exact h)

theorem renderPs_eq_concat_of (sep : Str → Str) : ∀ (qs : List (Str × Str)),
    (∀ p ∈ qs, sep p.2 = p.2) →
    (∀ p, qs.getLast? = some p → p.2 = []) →
    renderPs sep qs = concatPairs qs := by
  intro qs
  induction qs with
  | nil => intro _ _; rfl
  | cons a t ih =>
    obtain ⟨w, r⟩ := a
    cases t with
    | nil =>
      intro _ hl
      have hr : r = [] := hl (w, r) (by rw [List.getLast?_singleton])
      subst hr
      show w = concatPairs [(w, [])]
      simp [concatPairs]
    | cons q qs2 =>
      intro hfix hl
      rw [renderPs_cons_cons, concatPairs_cons]
      rw [hfix (w, r) (List.mem_cons_self _ _)]
      rw [ih (fun y hy => hfix y (List.mem_cons_of_mem _ hy))
        (fun y hy => hl y (by rw [List.getLast?_cons_cons]; exact hy))]

theorem postprocess_idem (x : Str) :
    postprocess (postprocess x) = postprocess x := by
  have hps := decompPairs_wf (x.dropWhile isWs).length (x.dropWhile isWs)
    le_rfl (fun y hy => head_dropWhile_not isWs x y hy)
  have hx : x = x.takeWhile isWs
      ++ concatPairs (decompPairs (x.dropWhile isWs)) := by
    rw [concat_decompPairs (x.dropWhile isWs).length _ le_rfl,
      List.takeWhile_append_dropWhile]
  have h1 : postprocess x
      = renderPs sepFn (decompPairs (x.dropWhile isWs)) := by
    conv_lhs => rw [hx]
    exact postprocess_decomp _ _ hps
      (fun c hc => List.mem_takeWhile_imp hc)
  rw [h1]
  rw [show renderPs sepFn (decompPairs (x.dropWhile isWs))
      = concatPairs (mergeSep sepFn (decompPairs (x.dropWhile isWs)))
    from (mergeSep_render sepFn _).symm]
  have hmwf : ∀ p ∈ mergeSep sepFn (decompPairs (x.dropWhile isWs)),
      p.1 ≠ [] ∧ (∀ c ∈ p.1, isWs c = false) ∧ (∀ c ∈ p.2, isWs c = true) := by
    intro p hp
    have hw := mergeSep_words sepFn (decompPairs (x.dropWhile isWs))
      (fun q hq => ⟨(hps q hq).1, (hps q hq).2.1⟩) p hp
    have hr := mergeSep_runs_ws (decompPairs (x.dropWhile isWs))
      (fun q hq => (hps q hq).2.2) p hp
    exact ⟨hw.1, hw.2, hr⟩
  have h3 : postprocess
      (concatPairs (mergeSep sepFn (decompPairs (x.dropWhile isWs))))
      = renderPs sepFn (mergeSep sepFn (decompPairs (x.dropWhile isWs))) := by
    conv_lhs => rw [← List.nil_append
      (concatPairs (mergeSep sepFn (decompPairs (x.dropWhile isWs))))]
    exact postprocess_decomp _ _ hmwf (by intro c hc; cases hc)
  rw [h3]
  exact renderPs_eq_concat_of sepFn _
    (fun p hp => mergeSep_runs _ p hp)
    (fun p hp => mergeSep_last sepFn _ p hp)

/-! ## Idempotence of the whole sanitizer -/

theorem noTabCR_replaceChar (d c : Char) (hc : c ∈ replaceChar d) :
    c ≠ '\t' ∧ c ≠ '\r' := by
  unfold replaceChar at hc
  by_cases h1 : d = '’'
  · rw [if_pos h1] at hc
    revert c
    decide
  rw [if_neg h1] at hc
  by_cases h2 : d = '‘'
  · rw [if_pos h2] at hc
    revert c
    decide
  rw [if_neg h2] at hc
  by_cases h3 : d = '“'
  · rw [if_pos h3] at hc
    revert c
    decide
  rw [if_neg h3] at hc
  by_cases h4 : d = '”'
  · rw [if_pos h4] at hc
    revert c
    decide
  rw [if_neg h4] at hc
  by_cases h5 : d = '–'
  · rw [if_pos h5] at hc
    revert c
    decide
  rw [if_neg h5] at hc
  by_cases h6 : d = '—'
  · rw [if_pos h6] at hc
    revert c
    decide
  rw [if_neg h6] at hc
  by_cases h7 : d = '…'
  · rw [if_pos h7] at hc
    revert c
    decide
  rw [if_neg h7] at hc
  by_cases h8 : d = '°'
  · rw [if_pos h8] at hc
    revert c
    decide
  rw [if_neg h8] at hc
  by_cases h9 : d = '½'
  · rw [if_pos h9] at hc
    revert c
    decide
  rw [if_neg h9] at hc
  by_cases h10 : d = '¼'
  · rw [if_pos h10] at hc
    revert c
    decide
  rw [if_neg h10] at hc
  by_cases h11 : d = '¾'
  · rw [if_pos h11] at hc
    revert c
    decide
  rw [if_neg h11] at hc
  by_cases h12 : d = '²'
  · rw [if_pos h12] at hc
    revert c
    decide
  rw [if_neg h12] at hc
  by_cases h13 : d = '³'
  · rw [if_pos h13] at hc
    revert c
    decide
  rw [if_neg h13] at hc
  by_cases h14 : d = '•'
  · rw [if_pos h14] at hc
    revert c
    decide
  rw [if_neg h14] at hc
  by_cases h15 : d = '×'
  · rw [if_pos h15] at hc
    revert c
    decide
  rw [if_neg h15] at hc
  by_cases h16 : d = '÷'
  · rw [if_pos h16] at hc
    revert c
    decide
  rw [if_neg h16] at hc
  by_cases h17 : d = 'μ'
  · rw [if_pos h17] at hc
    revert c
    decide
  rw [if_neg h17] at hc
  by_cases h18 : d = '±'
  · rw [if_pos h18] at hc
    revert c
    decide
  rw [if_neg h18] at hc
  by_cases h19 : d = '≥'
  · rw [if_pos h19] at hc
    revert c
    decide
  rw [if_neg h19] at hc
  by_cases h20 : d = '≤'
  · rw [if_pos h20] at hc
    revert c
    decide
  rw [if_neg h20] at hc
  by_cases h21 : d = '≠'
  · rw [if_pos h21] at hc
    revert c
    decide
  rw [if_neg h21] at hc
  by_cases h22 : d = '≈'
  · rw [if_pos h22] at hc
    revert c
    decide
  rw [if_neg h22] at hc
  by_cases h23 : d = '√'
  · rw [if_pos h23] at hc
    revert c
    decide
  rw [if_neg h23] at hc
  by_cases h24 : d = '∞'
  · rw [if_pos h24] at hc
    revert c
    decide
  rw [if_neg h24] at hc
  by_cases h25 : d = 'π'
  · rw [if_pos h25] at hc
    revert c
    decide
  rw [if_neg h25] at hc
  by_cases h26 : d = 'α'
  · rw [if_pos h26] at hc
    revert c
    decide
  rw [if_neg h26] at hc
  by_cases h27 : d = 'β'
  · rw [if_pos h27] at hc
    revert c
    decide
  rw [if_neg h27] at hc
  by_cases h28 : d = 'γ'
  · rw [if_pos h28] at hc
    revert c
    decide
  rw [if_neg h28] at hc
  by_cases h29 : d = 'δ'
  · rw [if_pos h29] at hc
    revert c
    decide
  rw [if_neg h29] at hc
  by_cases h30 : d = 'Ω'
  · rw [if_pos h30] at hc
    revert c
    decide
  rw [if_neg h30] at hc
  by_cases h31 : d = '©'
  · rw [if_pos h31] at hc
    revert c
    decide
  rw [if_neg h31] at hc
  by_cases h32 : d = '®'
  · rw [if_pos h32] at hc
    revert c
    decide
  rw [if_neg h32] at hc
  by_cases h33 : d = '™'
  · rw [if_pos h33] at hc
    revert c
    decide
  rw [if_neg h33] at hc
  by_cases h34 : d = '§'
  · rw [if_pos h34] at hc
    revert c
    decide
  rw [if_neg h34] at hc
  by_cases h35 : d = '†'
  · rw [if_pos h35] at hc
    revert c
    decide
  rw [if_neg h35] at hc
  by_cases h36 : d = '‡'
  · rw [if_pos h36] at hc
    revert c
    decide
  rw [if_neg h36] at hc
  by_cases h37 : d = '¶'
  · rw [if_pos h37] at hc
    revert c
    decide
  rw [if_neg h37] at hc
  by_cases h38 : d = '‰'
  · rw [if_pos h38] at hc
    revert c
    decide
  rw [if_neg h38] at hc
  by_cases h39 : d = 'º'
  · rw [if_pos h39] at hc
    revert c
    decide
  rw [if_neg h39] at hc
  by_cases h40 : d = 'ª'
  · rw [if_pos h40] at hc
    revert c
    decide
  rw [if_neg h40] at hc
  by_cases h41 : d = '′'
  · rw [if_pos h41] at hc
    revert c
    decide
  rw [if_neg h41] at hc
  by_cases h42 : d = '″'
  · rw [if_pos h42] at hc
    revert c
    decide
  rw [if_neg h42] at hc
  by_cases h43 : d = '‴'
  · rw [if_pos h43] at hc
    revert c
    decide
  rw [if_neg h43] at hc
  by_cases h44 : d = 'µ'
  · rw [if_pos h44] at hc
    revert c
    decide
  rw [if_neg h44] at hc
  by_cases h45 : d = ' '
  · rw [if_pos h45] at hc
    revert c
    decide
  rw [if_neg h45] at hc
  by_cases h46 : d = '﻿'
  · rw [if_pos h46] at hc
    revert c
    decide
  rw [if_neg h46] at hc
  by_cases h47 : d = '​'
  · rw [if_pos h47] at hc
    revert c
    decide
  rw [if_neg h47] at hc
  by_cases h48 : d = '‌'
  · rw [if_pos h48] at hc
    revert c
    decide
  rw [if_neg h48] at hc
  by_cases h49 : d = '‍'
  · rw [if_pos h49] at hc
    revert c
    decide
  rw [if_neg h49] at hc
  by_cases h50 : d = ' '
  · rw [if_pos h50] at hc
    revert c
    decide
  rw [if_neg h50] at hc
  by_cases h51 : d = ' '
  · rw [if_pos h51] at hc
    revert c
    decide
  rw [if_neg h51] at hc
  by_cases h52 : d = '\t'
  · rw [if_pos h52] at hc
    revert c
    decide
  rw [if_neg h52] at hc
  by_cases h53 : d = '\r'
  · rw [if_pos h53] at hc
    revert c
    decide
  rw [if_neg h53] at hc
  simp only [List.mem_singleton] at hc
  subst hc
  exact ⟨h52, h53⟩

theorem replaceChar_tame (c : Char) (h128 : c.toNat < 128)
    (ht : c ≠ '\t') (hr : c ≠ '\r') : replaceChar c = [c] := by
  unfold replaceChar
  rw [if_neg (fun h => by subst h; exact absurd h128 (by decide))]
  rw [if_neg (fun h => by subst h; exact absurd h128 (by decide))]
  rw [if_neg (fun h => by subst h; exact absurd h128 (by decide))]
  rw [if_neg (fun h => by subst h; exact absurd h128 (by decide))]
  rw [if_neg (fun h => by subst h; exact absurd h128 (by decide))]
  rw [if_neg (fun h => by subst h; exact absurd h128 (by decide))]
  rw [if_neg (fun h => by subst h; exact absurd h128 (by decide))]
  rw [if_neg (fun h => by subst h; exact absurd h128 (by decide))]
  rw [if_neg (fun h => by subst h; exact absurd h128 (by decide))]
  rw [if_neg (fun h => by subst h; exact absurd h128 (by decide))]
  rw [if_neg (fun h => by subst h; exact absurd h128 (by decide))]
  rw [if_neg (fun h => by subst h; exact absurd h128 (by decide))]
  rw [if_neg (fun h => by subst h; exact absurd h128 (by decide))]
  rw [if_neg (fun h => by subst h; exact absurd h128 (by decide))]
  rw [if_neg (fun h => by subst h; exact absurd h128 (by decide))]
  rw [if_neg (fun h => by subst h; exact absurd h128 (by decide))]
  rw [if_neg (fun h => by subst h; exact absurd h128 (by decide))]
  rw [if_neg (fun h => by subst h; exact absurd h128 (by decide))]
  rw [if_neg (fun h => by subst h; exact absurd h128 (by decide))]
  rw [if_neg (fun h => by subst h; exact absurd h128 (by decide))]
  rw [if_neg (fun h => by subst h; exact absurd h128 (by decide))]
  rw [if_neg (fun h => by subst h; exact absurd h128 (by decide))]
  rw [if_neg (fun h => by subst h; exact absurd h128 (by decide))]
  rw [if_neg (fun h => by subst h; exact absurd h128 (by decide))]
  rw [if_neg (fun h => by subst h; exact absurd h128 (by decide))]
  rw [if_neg (fun h => by subst h; exact absurd h128 (by decide))]
  rw [if_neg (fun h => by subst h; exact absurd h128 (by decide))]
  rw [if_neg (fun h => by subst h; exact absurd h128 (by decide))]
  rw [if_neg (fun h => by subst h; exact absurd h128 (by decide))]
  rw [if_neg (fun h => by subst h; exact absurd h128 (by decide))]
  rw [if_neg (fun h => by subst h; exact absurd h128 (by decide))]
  rw [if_neg (fun h => by subst h; exact absurd h128 (by decide))]
  rw [if_neg (fun h => by subst h; exact absurd h128 (by decide))]
  rw [if_neg (fun h => by subst h; exact absurd h128 (by decide))]
  rw [if_neg (fun h => by subst h; exact absurd h128 (by decide))]
  rw [if_neg (fun h => by subst h; exact absurd h128 (by decide))]
  rw [if_neg (fun h => by subst h; exact absurd h128 (by decide))]
  rw [if_neg (fun h => by subst h; exact absurd h128 (by decide))]
  rw [if_neg (fun h => by subst h; exact absurd h128 (by decide))]
  rw [if_neg (fun h => by subst h; exact absurd h128 (by decide))]
  rw [if_neg (fun h => by subst h; exact absurd h128 (by decide))]
  rw [if_neg (fun h => by subst h; exact absurd h128 (by decide))]
  rw [if_neg (fun h => by subst h; exact absurd h128 (by decide))]
  rw [if_neg (fun h => by subst h; exact absurd h128 (by decide))]
  rw [if_neg (fun h => by subst h; exact absurd h128 (by decide))]
  rw [if_neg (fun h => by subst h; exact absurd h128 (by decide))]
  rw [if_neg (fun h => by subst h; exact absurd h128 (by decide))]
  rw [if_neg (fun h => by subst h; exact absurd h128 (by decide))]
  rw [if_neg (fun h => by subst h; exact absurd h128 (by decide))]
  rw [if_neg (fun h => by subst h; exact absurd h128 (by decide))]
  rw [if_neg (fun h => by subst h; exact absurd h128 (by decide))]
  rw [if_neg ht]
  rw [if_neg hr]

theorem isBoxChar_ascii {c : Char} (h : c.toNat < 128) :
    isBoxChar c = false := by
  unfold isBoxChar
  apply decide_eq_false
  intro hm
  have hall : ∀ d ∈ ['│', '├', '─', '└', '┘', '┌', '┐', '┤', '┬', '┴', '┼',
      '╭', '╮', '╯', '╰', '╱', '╲', '╳', '┇', '┆', '┊', '┋'],
      128 ≤ d.toNat := by decide
  have := hall c hm
  omega

theorem char_eq_of_toNat {c : Char} {n : Nat} (d : Char) (h : c.toNat = n)
    (hd : Char.ofNat n = d) : c = d := by
  have h2 := Char.ofNat_toNat c
  rw [h, hd] at h2
  exact h2.symm

theorem noTabCR_cleanAfterNFKD {c : Char} {t : Str}
    (h : c ∈ cleanAfterNFKD t) : c ≠ '\t' ∧ c ≠ '\r' := by
  unfold cleanAfterNFKD at h
  have h1 := mem_pyStrip h
  have h2 := mem_sub3Go h1
  rcases h2 with h2 | h2 | h2
  · subst h2; decide
  · simp at h2
  have h3 := mem_sub2Go h2
  rcases h3 with h3 | h3 | h3
  · subst h3; decide
  · simp at h3
  have h4 := mem_sub1Go h3
  rcases h4 with h4 | h4
  · subst h4; decide
  have h5 := List.mem_filter.mp h4
  have h6 := List.mem_filter.mp h5.1
  have h7 := List.mem_map.mp h6.1
  obtain ⟨d, hd2, hd⟩ := h7
  by_cases hp : pythonPrintable d = true
  · rw [if_pos hp] at hd
    subst hd
    have h8 := List.mem_filter.mp hd2
    have h9 := List.mem_flatten.mp h8.1
    obtain ⟨l, hl, hcl⟩ := h9
    obtain ⟨e, _, hel⟩ := List.mem_map.mp hl
    subst hel
    exact noTabCR_replaceChar e _ hcl
  · rw [if_neg hp] at hd
    subst hd; decide

theorem tame_of_mem_cleanAfterNFKD {c : Char} {t : Str}
    (h : c ∈ cleanAfterNFKD t) : tameChar c = true := by
  have ha := allowedOut_of_mem_cleanAfterNFKD h
  have hn := noTabCR_cleanAfterNFKD h
  unfold allowedOut at ha
  unfold tameChar
  simp only [Bool.or_eq_true, Bool.and_eq_true, decide_eq_true_eq] at ha ⊢
  rcases ha with ((h9 | h10) | h13) | h32
  · exact absurd (char_eq_of_toNat '\t' h9 (by decide)) hn.1
  · exact Or.inl (char_eq_of_toNat '\n' h10 (by decide))
  · exact absurd (char_eq_of_toNat '\r' h13 (by decide)) hn.2
  · exact Or.inr h32

theorem pythonPrintable_of_tame {c : Char} (h : tameChar c = true) :
    pythonPrintable c = true := by
  unfold tameChar at h
  unfold pythonPrintable
  simp only [Bool.or_eq_true, Bool.and_eq_true, decide_eq_true_eq] at h ⊢
  rcases h with h | h
  · subst h
    exact Or.inr ⟨by decide, by decide⟩
  · exact Or.inl h

theorem flatten_map_id_of (f : Char → Str) : ∀ (l : Str),
    (∀ c ∈ l, f c = [c]) → (l.map f).flatten = l := by
  intro l
  induction l with
  | nil => intro _; rfl
  | cons c cs ih =>
    intro h
    simp only [List.map_cons, List.flatten_cons]
    rw [h c (List.mem_cons_self _ _),
      ih (fun d hd => h d (List.mem_cons_of_mem _ hd))]
    rfl

theorem map_id_of (f : Char → Char) : ∀ (l : Str),
    (∀ c ∈ l, f c = c) → l.map f = l := by
  intro l
  induction l with
  | nil => intro _; rfl
  | cons c cs ih =>
    intro h
    simp only [List.map_cons]
    rw [h c (List.mem_cons_self _ _),
      ih (fun d hd => h d (List.mem_cons_of_mem _ hd))]

theorem tstages_cons_tame {c : Char} (cs : Str) (hc : tameChar c = true) :
    tstages (c :: cs) = c :: tstages cs := by
  have h1 := hc
  unfold tameChar at h1
  simp only [Bool.or_eq_true, Bool.and_eq_true, decide_eq_true_eq] at h1
  have h128 : c.toNat < 128 := by
    rcases h1 with h1 | h1
    · subst h1; decide
    · omega
  have hnt : c ≠ '\t' ∧ c ≠ '\r' := by
    constructor <;> intro he <;> subst he <;> revert h1 <;> decide
  have h32 : (decide (32 ≤ c.toNat) || decide (c ∈ ['\n', '\r', '\t']))
      = true := by
    rw [Bool.or_eq_true]
    rcases h1 with h1 | h1
    · right
      rw [decide_eq_true_eq, h1]
      decide
    · left
      exact decide_eq_true h1.1
  unfold tstages
  simp only [List.map_cons, List.flatten_cons,
    replaceChar_tame c h128 hnt.1 hnt.2, List.singleton_append]
  rw [List.filter_cons_of_pos (by rw [isBoxChar_ascii h128]; rfl)]
  rw [List.map_cons, if_pos (pythonPrintable_of_tame hc)]
  rw [List.filter_cons_of_pos (p := fun c : Char =>
    decide (32 ≤ c.toNat) || decide (c ∈ ['\n', '\r', '\t'])) (a := c) h32]
  rw [List.filter_cons_of_pos (p := fun c : Char => decide (c.toNat < 128))
    (a := c) (decide_eq_true h128)]

theorem tstages_tame {u : Str} (h : ∀ c ∈ u, tameChar c = true) :
    tstages u = u := by
  induction u with
  | nil => rfl
  | cons c cs ih =>
    rw [tstages_cons_tame cs (h c (List.mem_cons_self _ _)),
      ih (fun d hd => h d (List.mem_cons_of_mem _ hd))]

theorem cleanAfterNFKD_eq_postprocess (t : Str) :
    cleanAfterNFKD t = postprocess (tstages t) := rfl

theorem cleanAfterNFKD_idem (t : Str) :
    cleanAfterNFKD (cleanAfterNFKD t) = cleanAfterNFKD t := by
  rw [cleanAfterNFKD_eq_postprocess (cleanAfterNFKD t)]
  rw [tstages_tame (fun c hc => tame_of_mem_cleanAfterNFKD hc)]
  rw [cleanAfterNFKD_eq_postprocess t]
  exact postprocess_idem (tstages t)

theorem clean_eq_empty (nfkd : Str → Str) (t : Str) (h : t.isEmpty = true) :
    clean_text_for_api nfkd t = [] := by
  rw [clean_text_for_api, if_pos h]

theorem clean_eq_of_not_empty (nfkd : Str → Str) (t : Str)
    (h : ¬t.isEmpty = true) :
    clean_text_for_api nfkd t = cleanAfterNFKD (nfkd t) := by
  rw [clean_text_for_api, if_neg h]

/-- **C4.**  Idempotence of the sanitizer: for every input string,
applying `clean_text_for_api` twice yields the same result as applying it
once.  The hypothesis records the relevant fact about the Unicode NFKD
normalization step of the second application: the sanitizer's output
consists of printable ASCII and newlines only, which NFKD leaves
unchanged. -/
theorem clean_text_for_api_idempotent (nfkd : Str → Str) (s : Str)
    (h : nfkd (clean_text_for_api nfkd s) = clean_text_for_api nfkd s) :
    clean_text_for_api nfkd (clean_text_for_api nfkd s)
      = clean_text_for_api nfkd s := by
  by_cases hu : (clean_text_for_api nfkd s).isEmpty
  · rw [clean_eq_empty nfkd _ hu]
    exact (List.isEmpty_iff.mp hu).symm
  · rw [clean_eq_of_not_empty nfkd _ hu, h]
    by_cases hs : s.isEmpty
    · exact absurd (by rw [clean_eq_empty nfkd s hs]; rfl) hu
    · rw [clean_eq_of_not_empty nfkd s hs]
      exact cleanAfterNFKD_idem (nfkd s)

set_option maxRecDepth 8000 in
/-- Witness for C4: the idempotence theorem applied at a concrete input
(leading/trailing blanks, a tab, and a blank-line pair), with the identity
as the NFKD behaviour; the hypothesis is discharged by computation. -/
theorem clean_text_for_api_idempotent_witness :
    (fun t : Str => t) (clean_text_for_api (fun t => t) (str " a\tb\n\n\nc  "))
        = clean_text_for_api (fun t => t) (str " a\tb\n\n\nc  ")
      ∧ clean_text_for_api (fun t => t)
          (clean_text_for_api (fun t => t) (str " a\tb\n\n\nc  "))
        = clean_text_for_api (fun t => t) (str " a\tb\n\n\nc  ") :=
  ⟨rfl, clean_text_for_api_idempotent (fun t => t) (str " a\tb\n\n\nc  ") rfl⟩

/-! ## The zero-content document still yields an ordinary Document Result -/

theorem postprocess_head {x : Str} {c : Char} (hx : x.head? = some c)
    (hc : isWs c = false) : (postprocess x).head? = some c := by
  cases x with
  | nil => simp at hx
  | cons a cs =>
    rw [List.head?_cons, Option.some.injEq] at hx
    subst hx
    have h1 : postprocess (a :: cs)
        = renderPs sepFn (decompPairs (a :: cs)) := by
      conv_lhs => rw [show a :: cs
        = [] ++ concatPairs (decompPairs (a :: cs)) from by
          rw [concat_decompPairs (a :: cs).length _ le_rfl]
          rfl]
      exact postprocess_decomp _ []
        (decompPairs_wf (a :: cs).length _ le_rfl (fun y hy => by
          rw [List.head?_cons, Option.some.injEq] at hy
          subst hy
          exact hc))
        (by intro d hd; cases hd)
    rw [h1]
    simp only [decompPairs]
    rw [head_renderPs _ _ _ _ (by
      rw [List.takeWhile_cons, if_pos (by simp [hc])]
      simp)]
    rw [List.takeWhile_cons, if_pos (by simp [hc]), List.head?_cons]

theorem assembledDoc_head (nfkd : Str → Str) (pages : List PageBehavior) :
    ∃ u, assembledDoc nfkd pages = '=' :: u :=
  ⟨_, rfl⟩

/-- **C5 (amended).**  A document that opens but whose every page recovers
no text does not produce a distinguishable "no extractable content" error:
the operation returns normally an ordinary Document Result that begins with
the document-header separator line (`'='*60`), not with the
`[PDF EXTRACTION FAILED: ` marker.  (The hypothesis on `nfkd` records that
NFKD normalization fixes the assembled ASCII document.) -/
theorem no_content_amended (nfkd : Str → Str) (pages : List PageBehavior)
    (hz : ∀ b ∈ pages, pageYieldsNoText b = true)
    (hn : nfkd (assembledDoc nfkd pages) = assembledDoc nfkd pages) :
    ∃ rest, extract_text_from_pdfE nfkd (DocBehavior.opened pages)
        = Except.ok ('=' :: rest)
      ∧ (str "[PDF EXTRACTION FAILED: ").isPrefixOf ('=' :: rest) = false := by
  obtain ⟨u, hu⟩ := assembledDoc_head nfkd pages
  have hne : ¬(assembledDoc nfkd pages).isEmpty = true := by
    rw [hu]
    simp
  have hhead : (extract_text_from_pdf nfkd (DocBehavior.opened pages)).head?
      = some '=' := by
    show (clean_text_for_api nfkd (assembledDoc nfkd pages)).head? = some '='
    rw [clean_eq_of_not_empty _ _ hne, hn, cleanAfterNFKD_eq_postprocess]
    rw [hu, tstages_cons_tame u (by decide)]
    exact postprocess_head (List.head?_cons) (by decide)
  cases hout : extract_text_from_pdf nfkd (DocBehavior.opened pages) with
  | nil =>
    rw [hout] at hhead
    simp at hhead
  | cons d rest =>
    rw [hout, List.head?_cons, Option.some.injEq] at hhead
    subst hhead
    refine ⟨rest, ?_, ?_⟩
    · show Except.ok (extract_text_from_pdf nfkd (DocBehavior.opened pages))
        = Except.ok ('=' :: rest)
      rw [hout]
    · simp [str, List.isPrefixOf]

/-- Witness for the amended C5: a one-page document whose digital step
returns `None` and whose OCR times out — no text is recovered, yet the
operation returns an ordinary Document Result starting with `'='`. -/
theorem no_content_amended_witness :
    ∃ rest, extract_text_from_pdfE (fun t => t)
        (DocBehavior.opened [⟨DigitalOutcome.ok none, TableOutcome.ok [],
          OcrOutcome.timeout⟩])
        = Except.ok ('=' :: rest)
      ∧ (str "[PDF EXTRACTION FAILED: ").isPrefixOf ('=' :: rest) = false :=
  no_content_amended (fun t => t) _
    (by
      intro b hb
      rw [List.mem_singleton] at hb
      subst hb
      rfl)
    rfl

/-! ## Page-count invariant: digit strings and marker scanning -/

theorem toDigitsCore_digits : ∀ (fuel n : Nat) (ds : Str),
    (∀ c ∈ ds, c.isDigit = true) →
    ∀ c ∈ Nat.toDigitsCore 10 fuel n ds, c.isDigit = true := by
  intro fuel
  induction fuel with
  | zero => intro n ds hds c hc; exact hds c hc
  | succ f ih =>
    intro n ds hds c hc
    have hdig : ∀ k, k < 10 → (Nat.digitChar k).isDigit = true := by decide
    simp only [Nat.toDigitsCore] at hc
    split at hc
    · rcases List.mem_cons.mp hc with h | h
      · subst h
        exact hdig _ (Nat.mod_lt _ (by omega))
      · exact hds c h
    · refine ih _ _ ?_ c hc
      intro d hd
      rcases List.mem_cons.mp hd with h | h
      · subst h
        exact hdig _ (Nat.mod_lt _ (by omega))
      · exact hds d h

theorem toDigitsCore_ne_nil : ∀ (fuel n : Nat) (ds : Str), ds ≠ [] →
    Nat.toDigitsCore 10 fuel n ds ≠ [] := by
  intro fuel
  induction fuel with
  | zero => intro n ds hds; exact hds
  | succ f ih =>
    intro n ds hds
    simp only [Nat.toDigitsCore]
    split
    · simp
    · exact ih _ _ (by simp)

theorem natStr_eq_toDigits (n : Nat) : natStr n = Nat.toDigits 10 n := rfl

theorem natStr_digits (n : Nat) : ∀ c ∈ natStr n, c.isDigit = true := by
  rw [natStr_eq_toDigits]
  unfold Nat.toDigits
  exact toDigitsCore_digits (n + 1) n [] (by intro c hc; cases hc)

theorem natStr_ne_nil (n : Nat) : natStr n ≠ [] := by
  rw [natStr_eq_toDigits]
  unfold Nat.toDigits
  simp only [Nat.toDigitsCore]
  split
  · simp
  · exact toDigitsCore_ne_nil _ _ _ (by simp)

theorem isDigit_toNat {c : Char} (h : c.isDigit = true) :
    48 ≤ c.toNat ∧ c.toNat ≤ 57 := by
  unfold Char.isDigit at h
  rw [Bool.and_eq_true] at h
  obtain ⟨h1, h2⟩ := h
  rw [decide_eq_true_eq] at h1 h2
  exact ⟨UInt32.le_toNat_of_le (by decide) h1,
    UInt32.toNat_le_of_le (by decide) h2⟩

theorem digit_ne_eq {c : Char} (h : c.isDigit = true) : c ≠ '=' := by
  intro he
  subst he
  exact absurd h (by decide)

theorem digit_not_ws {c : Char} (h : c.isDigit = true) : isWs c = false := by
  obtain ⟨h1, h2⟩ := isDigit_toNat h
  apply Bool.eq_false_iff.mpr
  intro hw
  unfold isWs isPyStripWs at hw
  simp only [Bool.or_eq_true, Bool.and_eq_true, decide_eq_true_eq] at hw
  rcases hw with (((((((((((h3 | h3) | h3) | h3) | h3) | h3) | h3) | h3)
    | h3) | h3) | h3) | h3) <;> omega

theorem digit_tame {c : Char} (h : c.isDigit = true) : tameChar c = true := by
  obtain ⟨h1, h2⟩ := isDigit_toNat h
  unfold tameChar
  rw [Bool.or_eq_true]
  right
  rw [Bool.and_eq_true, decide_eq_true_eq, decide_eq_true_eq]
  exact ⟨by omega, by omega⟩

theorem digit_ne_nl {c : Char} (h : c.isDigit = true) : ¬c = '\n' := by
  intro he
  subst he
  exact absurd h (by decide)

theorem markerSeq_cons_not_eq {c : Char} (hc : c ≠ '=') (cs : Str) :
    markerSeq (c :: cs) = markerSeq cs := by
  have hp : pageMarkerPat.isPrefixOf (c :: cs) = false := by
    rw [show pageMarkerPat = '=' :: (List.replicate 49 '=' ++ str "\nPAGE ")
      from rfl]
    rw [List.isPrefixOf_cons₂]
    rw [show ('=' == c) = false from
      beq_eq_false_iff_ne.mpr (fun h => hc h.symm)]
    rfl
  simp only [markerSeq]
  rw [if_neg (by intro hcon; rw [hp] at hcon; cases hcon)]

theorem markerSeq_word : ∀ (w : Str), (∀ c ∈ w, c ≠ '=') → ∀ (v : Str),
    markerSeq (w ++ v) = markerSeq v := by
  intro w
  induction w with
  | nil => intro _ v; rfl
  | cons c cs ih =>
    intro hw v
    rw [List.cons_append,
      markerSeq_cons_not_eq (hw c (List.mem_cons_self _ _))]
    exact ih (fun d hd => hw d (List.mem_cons_of_mem _ hd)) v

theorem isPrefixOf_self_append : ∀ (p z : Str), p.isPrefixOf (p ++ z) = true := by
  intro p
  induction p with
  | nil => intro z; simp
  | cons c cs ih =>
    intro z
    rw [List.cons_append, List.isPrefixOf_cons₂, beq_self_eq_true,
      Bool.true_and]
    exact ih z

theorem takeWhile_all_append (p : Char → Bool) : ∀ (a : Str),
    (∀ x ∈ a, p x = true) → ∀ (c : Char), p c = false → ∀ (z : Str),
    (a ++ c :: z).takeWhile p = a := by
  intro a
  induction a with
  | nil =>
    intro _ c hc z
    rw [List.nil_append, List.takeWhile_cons, if_neg (by rw [hc]; simp)]
  | cons x xs ih =>
    intro ha c hc z
    rw [List.cons_append, List.takeWhile_cons,
      if_pos (ha x (List.mem_cons_self _ _))]
    rw [ih (fun y hy => ha y (List.mem_cons_of_mem _ hy)) c hc z]

theorem prefix_run : ∀ (j k : Nat) (v : Str),
    (∀ x, v.head? = some x → x ≠ '=') →
    ((List.replicate j '=' ++ str "\nPAGE ").isPrefixOf
        (List.replicate k '=' ++ v) = true
      ↔ (j = k ∧ (str "\nPAGE ").isPrefixOf v = true)) := by
  intro j
  induction j with
  | zero =>
    intro k v hv
    cases k with
    | zero => simp
    | succ k2 =>
      constructor
      · intro h
        rw [show (List.replicate 0 '=' ++ str "\nPAGE ")
            = '\n' :: str "PAGE " from rfl] at h
        rw [List.replicate_succ, List.cons_append,
          List.isPrefixOf_cons₂, Bool.and_eq_true] at h
        exact absurd h.1 (by decide)
      · intro h
        exact absurd h.1 (by omega)
  | succ j2 ih =>
    intro k v hv
    cases k with
    | zero =>
      rw [List.replicate_zero, List.nil_append]
      constructor
      · intro h
        rw [List.replicate_succ, List.cons_append] at h
        cases hvv : v with
        | nil =>
          rw [hvv] at h
          simp at h
        | cons a as =>
          rw [hvv, List.isPrefixOf_cons₂, Bool.and_eq_true] at h
          have ha := hv a (by rw [hvv]; rfl)
          rw [beq_iff_eq] at h
          exact absurd h.1.symm ha
      · intro h
        exact absurd h.1 (by omega)
    | succ k2 =>
      rw [List.replicate_succ, List.replicate_succ, List.cons_append,
        List.cons_append, List.isPrefixOf_cons₂,
        show ('=' == '=') = true from rfl, Bool.true_and]
      rw [ih k2 v hv]
      constructor
      · intro h
        exact ⟨by omega, h.2⟩
      · intro h
        exact ⟨by omega, h.2⟩

theorem markerSeq_eqrun : ∀ (k : Nat) (v : Str),
    (∀ x, v.head? = some x → x ≠ '=') →
    markerSeq (List.replicate k '=' ++ v)
      = (if 50 ≤ k ∧ (str "\nPAGE ").isPrefixOf v = true
         then [(v.drop 6).takeWhile Char.isDigit] else []) ++ markerSeq v := by
  intro k
  induction k with
  | zero =>
    intro v hv
    rw [List.replicate_zero, List.nil_append,
      if_neg (fun h => by omega), List.nil_append]
  | succ k2 ih =>
    intro v hv
    rw [List.replicate_succ, List.cons_append]
    simp only [markerSeq]
    by_cases hm : pageMarkerPat.isPrefixOf
        ('=' :: (List.replicate k2 '=' ++ v)) = true
    · rw [if_pos hm]
      have hm2 : (List.replicate 50 '=' ++ str "\nPAGE ").isPrefixOf
          (List.replicate (k2 + 1) '=' ++ v) = true := by
        rw [show List.replicate 50 '=' ++ str "\nPAGE " = pageMarkerPat
          from rfl]
        rw [List.replicate_succ, List.cons_append]
        exact hm
      obtain ⟨hk, hpv⟩ := (prefix_run 50 (k2 + 1) v hv).mp hm2
      rw [ih v hv]
      rw [if_neg (fun h => by omega)]
      rw [List.nil_append, if_pos ⟨by omega, hpv⟩]
      congr 1
      rw [show pageMarkerPat.length = 56 from rfl]
      rw [show ('=' :: (List.replicate k2 '=' ++ v)).drop 56
          = (List.replicate (k2 + 1) '=' ++ v).drop 56 from by
        rw [List.replicate_succ, List.cons_append]]
      rw [← hk]
      rw [show (56 : Nat) = (List.replicate 50 '=').length + 6 from by simp]
      rw [List.drop_append]
    · rw [if_neg (by intro hcon; exact hm hcon)]
      rw [ih v hv]
      by_cases hpv : (str "\nPAGE ").isPrefixOf v = true
      · have hne : ¬(50 = k2 + 1) := by
          intro he
          apply hm
          rw [show pageMarkerPat = List.replicate 50 '=' ++ str "\nPAGE "
            from rfl]
          rw [show ('=' :: (List.replicate k2 '=' ++ v))
              = List.replicate (k2 + 1) '=' ++ v from by
            rw [List.replicate_succ, List.cons_append]]
          exact (prefix_run 50 (k2 + 1) v hv).mpr ⟨he, hpv⟩
        by_cases h50 : 50 ≤ k2
        · rw [if_pos ⟨h50, hpv⟩, if_pos ⟨by omega, hpv⟩]
        · rw [if_neg (fun h => h50 h.1), if_neg (fun h => by omega)]
      · rw [if_neg (fun h => hpv h.2), if_neg (fun h => hpv h.2)]

theorem run_merge (a b : Nat) (S : Str) :
    List.replicate a '=' ++ (List.replicate b '=' ++ S)
      = List.replicate (a + b) '=' ++ S := by
  rw [← List.append_assoc, ← List.replicate_add]

theorem markerSeq_outT : ∀ (m n j : Nat),
    markerSeq (List.replicate j '=' ++ outT n m)
      = (List.range m).map (fun i => natStr (n + i)) := by
  intro m
  induction m with
  | zero =>
    intro n j
    rw [show outT n 0 = [] from rfl]
    rw [markerSeq_eqrun j [] (by intro x hx; cases hx)]
    rw [if_neg (by
      intro h
      have h2 := h.2
      rw [show (str "\nPAGE ").isPrefixOf [] = false from rfl] at h2
      cases h2)]
    rfl
  | succ m2 ih =>
    intro n j
    rw [show outT n (m2 + 1) = pageOutT n ++ outT (n + 1) m2 from rfl]
    rw [show pageOutT n ++ outT (n + 1) m2
        = List.replicate 50 '=' ++ (str "\nPAGE " ++ (natStr n
          ++ (str "\n" ++ (List.replicate 50 '='
          ++ (str "==START OF OCR FOR PAGE " ++ (natStr n
          ++ (str "==\n[OCR TIMED OUT FOR THIS PAGE]\n==END OF OCR FOR PAGE "
          ++ (natStr n ++ (str "==" ++ outT (n + 1) m2))))))))) from by
      simp [pageOutT, sep50, List.append_assoc]]
    rw [run_merge j 50]
    rw [markerSeq_eqrun (j + 50) _ (by
      intro x hx
      rw [show (str "\nPAGE " ++ (natStr n ++ (str "\n"
        ++ (List.replicate 50 '=' ++ (str "==START OF OCR FOR PAGE "
        ++ (natStr n ++ (str "==\n[OCR TIMED OUT FOR THIS PAGE]\n==END OF OCR FOR PAGE "
        ++ (natStr n ++ (str "==" ++ outT (n + 1) m2))))))))).head?
        = some '\n' from rfl] at hx
      injection hx with hx
      subst hx
      decide)]
    rw [if_pos ⟨by omega, by
      rw [show str "\nPAGE " ++ (natStr n ++ (str "\n"
        ++ (List.replicate 50 '=' ++ (str "==START OF OCR FOR PAGE "
        ++ (natStr n ++ (str "==\n[OCR TIMED OUT FOR THIS PAGE]\n==END OF OCR FOR PAGE "
        ++ (natStr n ++ (str "==" ++ outT (n + 1) m2))))))))
        = str "\nPAGE " ++ (natStr n ++ (str "\n"
        ++ (List.replicate 50 '=' ++ (str "==START OF OCR FOR PAGE "
        ++ (natStr n ++ (str "==\n[OCR TIMED OUT FOR THIS PAGE]\n==END OF OCR FOR PAGE "
        ++ (natStr n ++ (str "==" ++ outT (n + 1) m2)))))))) from rfl]
      exact isPrefixOf_self_append (str "\nPAGE ") _⟩]
    rw [show (6 : Nat) = (str "\nPAGE ").length from rfl]
    rw [List.drop_left' (h := rfl)]
    rw [show (natStr n ++ (str "\n" ++ (List.replicate 50 '='
        ++ (str "==START OF OCR FOR PAGE " ++ (natStr n
        ++ (str "==\n[OCR TIMED OUT FOR THIS PAGE]\n==END OF OCR FOR PAGE "
        ++ (natStr n ++ (str "==" ++ outT (n + 1) m2)))))))).takeWhile
          Char.isDigit
        = natStr n from by
      rw [show str "\n" ++ (List.replicate 50 '='
        ++ (str "==START OF OCR FOR PAGE " ++ (natStr n
        ++ (str "==\n[OCR TIMED OUT FOR THIS PAGE]\n==END OF OCR FOR PAGE "
        ++ (natStr n ++ (str "==" ++ outT (n + 1) m2))))))
        = '\n' :: (List.replicate 50 '='
        ++ (str "==START OF OCR FOR PAGE " ++ (natStr n
        ++ (str "==\n[OCR TIMED OUT FOR THIS PAGE]\n==END OF OCR FOR PAGE "
        ++ (natStr n ++ (str "==" ++ outT (n + 1) m2)))))) from rfl]
      exact takeWhile_all_append Char.isDigit (natStr n) (natStr_digits n)
        '\n' (by decide) _]
    rw [markerSeq_word (str "\nPAGE ") (by decide)]
    rw [markerSeq_word (natStr n)
      (fun c hc => digit_ne_eq (natStr_digits n c hc))]
    rw [markerSeq_word (str "\n") (by decide)]
    rw [show str "==START OF OCR FOR PAGE "
        = List.replicate 2 '=' ++ str "START OF OCR FOR PAGE " from rfl]
    rw [show List.replicate 2 '=' ++ str "START OF OCR FOR PAGE "
          ++ (natStr n
            ++ (str "==\n[OCR TIMED OUT FOR THIS PAGE]\n==END OF OCR FOR PAGE "
              ++ (natStr n ++ (str "==" ++ outT (n + 1) m2))))
        = List.replicate 2 '=' ++ (str "START OF OCR FOR PAGE "
          ++ (natStr n
            ++ (str "==\n[OCR TIMED OUT FOR THIS PAGE]\n==END OF OCR FOR PAGE "
              ++ (natStr n ++ (str "==" ++ outT (n + 1) m2)))))
        from by simp [List.append_assoc]]
    rw [run_merge 50 2]
    rw [markerSeq_eqrun 52 _ (by
      intro x hx
      rw [show (str "START OF OCR FOR PAGE " ++ (natStr n
        ++ (str "==\n[OCR TIMED OUT FOR THIS PAGE]\n==END OF OCR FOR PAGE "
        ++ (natStr n ++ (str "==" ++ outT (n + 1) m2))))).head?
        = some 'S' from rfl] at hx
      injection hx with hx
      subst hx
      decide)]
    rw [if_neg (by
      intro h
      have h2 := h.2
      rw [show (str "\nPAGE ").isPrefixOf (str "START OF OCR FOR PAGE "
        ++ (natStr n
        ++ (str "==\n[OCR TIMED OUT FOR THIS PAGE]\n==END OF OCR FOR PAGE "
        ++ (natStr n ++ (str "==" ++ outT (n + 1) m2))))) = false
        from rfl] at h2
      cases h2)]
    rw [List.nil_append]
    rw [markerSeq_word (str "START OF OCR FOR PAGE ") (by decide)]
    rw [markerSeq_word (natStr n)
      (fun c hc => digit_ne_eq (natStr_digits n c hc))]
    rw [show str "==\n[OCR TIMED OUT FOR THIS PAGE]\n==END OF OCR FOR PAGE "
        = List.replicate 2 '='
          ++ (str "\n[OCR TIMED OUT FOR THIS PAGE]\n"
            ++ (List.replicate 2 '=' ++ str "END OF OCR FOR PAGE "))
        from rfl]
    rw [show List.replicate 2 '='
          ++ (str "\n[OCR TIMED OUT FOR THIS PAGE]\n"
            ++ (List.replicate 2 '=' ++ str "END OF OCR FOR PAGE "))
          ++ (natStr n ++ (str "==" ++ outT (n + 1) m2))
        = List.replicate 2 '='
          ++ (str "\n[OCR TIMED OUT FOR THIS PAGE]\n"
            ++ (List.replicate 2 '=' ++ (str "END OF OCR FOR PAGE "
              ++ (natStr n ++ (str "==" ++ outT (n + 1) m2)))))
        from by simp [List.append_assoc]]
    rw [markerSeq_eqrun 2 _ (by
      intro x hx
      rw [show (str "\n[OCR TIMED OUT FOR THIS PAGE]\n"
        ++ (List.replicate 2 '=' ++ (str "END OF OCR FOR PAGE "
          ++ (natStr n ++ (str "==" ++ outT (n + 1) m2))))).head?
        = some '\n' from rfl] at hx
      injection hx with hx
      subst hx
      decide)]
    rw [if_neg (fun h => by omega)]
    rw [List.nil_append]
    rw [markerSeq_word (str "\n[OCR TIMED OUT FOR THIS PAGE]\n") (by decide)]
    rw [markerSeq_eqrun 2 _ (by
      intro x hx
      rw [show (str "END OF OCR FOR PAGE "
        ++ (natStr n ++ (str "==" ++ outT (n + 1) m2))).head?
        = some 'E' from rfl] at hx
      injection hx with hx
      subst hx
      decide)]
    rw [if_neg (fun h => by omega)]
    rw [List.nil_append]
    rw [markerSeq_word (str "END OF OCR FOR PAGE ") (by decide)]
    rw [markerSeq_word (natStr n)
      (fun c hc => digit_ne_eq (natStr_digits n c hc))]
    rw [show str "==" ++ outT (n + 1) m2
        = List.replicate 2 '=' ++ outT (n + 1) m2 from rfl]
    rw [ih (n + 1) 2]
    rw [List.range_succ_eq_map, List.map_cons, List.map_map,
      List.singleton_append, Nat.add_zero]
    congr 1
    apply List.map_congr_left
    intro i _
    show natStr (n + 1 + i) = natStr (n + Nat.succ i)
    rw [show n + 1 + i = n + Nat.succ i from by omega]

theorem pyJoin_cons_cons (sep x y : Str) (l : List Str) :
    pyJoin sep (x :: y :: l) = x ++ sep ++ pyJoin sep (y :: l) := rfl

theorem pyJoin_append_singleton (sep : Str) : ∀ (xs : List Str) (y : Str),
    xs ≠ [] → pyJoin sep (xs ++ [y]) = pyJoin sep xs ++ sep ++ y := by
  intro xs
  induction xs with
  | nil => intro y h; exact absurd rfl h
  | cons x xs2 ih =>
    intro y _
    cases xs2 with
    | nil => rfl
    | cons z zs =>
      rw [List.cons_append, List.cons_append, pyJoin_cons_cons,
        pyJoin_cons_cons]
      have ih2 := ih y (by simp)
      rw [List.cons_append] at ih2
      rw [ih2]
      simp [List.append_assoc]

theorem bridge_timeout (nfkd : Str → Str) (n : Nat) :
    str "\n\n" ++ concatPairs (pagePairsT n)
      = str "\n" ++ (processPage nfkd n pageTimeout ++ str "\n\n") := by
  simp only [processPage, pageContentElems, pageTimeout, digitalSufficient,
    ocrBlock, ocrBody, pyJoin, concatPairs, pagePairsT, nlStr,
    List.map_cons, List.map_nil, List.flatten_cons, List.flatten_nil,
    List.cons_append, List.nil_append, List.append_nil, List.append_assoc]
  rfl

theorem concatPairs_append (ps qs : List (Str × Str)) :
    concatPairs (ps ++ qs) = concatPairs ps ++ concatPairs qs := by
  unfold concatPairs
  rw [List.map_append, List.flatten_append]

theorem assembled_timeout_succ (nfkd : Str → Str) (N : Nat) :
    assembledDoc nfkd (List.replicate (N + 1) pageTimeout)
      = assembledDoc nfkd (List.replicate N pageTimeout)
        ++ str "\n" ++ processPage nfkd (N + 1) pageTimeout := by
  unfold assembledDoc
  rw [List.replicate_succ', List.enum_append, List.map_append]
  rw [show (List.enumFrom (List.replicate N pageTimeout).length
      [pageTimeout]).map (fun p => processPage nfkd (p.1 + 1) p.2)
      = [processPage nfkd ((List.replicate N pageTimeout).length + 1)
          pageTimeout] from rfl]
  rw [← List.append_assoc]
  rw [pyJoin_append_singleton nlStr _ _ (by simp [documentHeader])]
  rw [List.length_replicate]
  rfl

theorem concat_psTimeout (nfkd : Str → Str) : ∀ (N : Nat),
    concatPairs (psTimeout N)
      = assembledDoc nfkd (List.replicate N pageTimeout) ++ str "\n\n" := by
  intro N
  induction N with
  | zero =>
    show concatPairs (psTimeout 0)
      = assembledDoc nfkd (List.replicate 0 pageTimeout) ++ str "\n\n"
    unfold psTimeout assembledDoc
    simp only [List.range_zero, List.flatMap_nil, List.append_nil,
      List.replicate_zero, List.enum_nil, List.map_nil]
    rfl
  | succ N2 ih =>
    unfold psTimeout
    rw [List.range_succ, List.flatMap_append]
    rw [← List.append_assoc, concatPairs_append]
    rw [show psTimeout N2 = hdrPairsT
      ++ (List.range N2).flatMap (fun i => pagePairsT (i + 1)) from rfl] at ih
    rw [ih]
    rw [show ([N2].flatMap fun i => pagePairsT (i + 1))
        = pagePairsT (N2 + 1) from by simp]
    rw [assembled_timeout_succ nfkd N2]
    simp only [List.append_assoc]
    congr 1
    exact bridge_timeout nfkd (N2 + 1)

theorem setLastRun_concat : ∀ (ps : List (Str × Str)) (w r : Str),
    ps.getLast? = some (w, r) →
    concatPairs ps = concatPairs (setLastRun ps) ++ r := by
  intro ps
  induction ps with
  | nil => intro w r h; simp at h
  | cons p t ih =>
    intro w r h
    cases t with
    | nil =>
      obtain ⟨w2, r2⟩ := p
      rw [List.getLast?_singleton, Option.some.injEq] at h
      cases h
      simp [setLastRun, concatPairs]
    | cons q t2 =>
      rw [List.getLast?_cons_cons] at h
      obtain ⟨w2, r2⟩ := p
      rw [show setLastRun ((w2, r2) :: q :: t2)
          = (w2, r2) :: setLastRun (q :: t2) from rfl]
      rw [concatPairs_cons]
      rw [show concatPairs ((w2, r2) :: setLastRun (q :: t2))
          = w2 ++ r2 ++ concatPairs (setLastRun (q :: t2)) from by
        simp [concatPairs]]
      rw [ih w r h]
      simp [List.append_assoc]

theorem mem_setLastRun : ∀ (ps : List (Str × Str)) (p : Str × Str),
    p ∈ setLastRun ps → ∃ q ∈ ps, p.1 = q.1 ∧ (p.2 = [] ∨ p.2 = q.2) := by
  intro ps
  induction ps with
  | nil => intro p hp; simp [setLastRun] at hp
  | cons a t ih =>
    intro p hp
    cases t with
    | nil =>
      obtain ⟨w, r⟩ := a
      rw [show setLastRun [(w, r)] = [(w, [])] from rfl,
        List.mem_singleton] at hp
      subst hp
      exact ⟨(w, r), List.mem_cons_self _ _, rfl, Or.inl rfl⟩
    | cons q t2 =>
      rw [show setLastRun (a :: q :: t2) = a :: setLastRun (q :: t2)
        from rfl] at hp
      rcases List.mem_cons.mp hp with h | h
      · subst h
        exact ⟨p, List.mem_cons_self _ _, rfl, Or.inr rfl⟩
      · obtain ⟨q2, hq2, h1, h2⟩ := ih p h
        exact ⟨q2, List.mem_cons_of_mem _ hq2, h1, h2⟩

theorem setLastRun_cons_ne_nil (a : Str × Str) :
    ∀ (t : List (Str × Str)), setLastRun (a :: t) ≠ [] := by
  intro t
  cases t with
  | nil =>
    obtain ⟨w, r⟩ := a
    rw [show setLastRun [(w, r)] = [(w, [])] from rfl]
    simp
  | cons q t2 =>
    rw [show setLastRun (a :: q :: t2) = a :: setLastRun (q :: t2) from rfl]
    simp

theorem renderPs_setLastRun (sep : Str → Str) : ∀ (ps : List (Str × Str)),
    renderPs sep (setLastRun ps) = renderPs sep ps := by
  intro ps
  induction ps with
  | nil => rfl
  | cons p t ih =>
    cases t with
    | nil =>
      obtain ⟨w, r⟩ := p
      rfl
    | cons q t2 =>
      obtain ⟨w, r⟩ := p
      rw [show setLastRun ((w, r) :: q :: t2)
          = (w, r) :: setLastRun (q :: t2) from rfl]
      cases hst : setLastRun (q :: t2) with
      | nil => exact absurd hst (setLastRun_cons_ne_nil q t2)
      | cons q' t' =>
        rw [renderPs_cons_cons, renderPs_cons_cons]
        rw [← hst, ih]

theorem renderPs_append (sep : Str → Str) : ∀ (ps qs : List (Str × Str)),
    qs ≠ [] → renderPs sep (ps ++ qs)
      = (ps.map (fun p => p.1 ++ sep p.2)).flatten ++ renderPs sep qs := by
  intro ps
  induction ps with
  | nil => intro qs _; simp
  | cons p t ih =>
    intro qs hqs
    obtain ⟨w, r⟩ := p
    rw [List.cons_append]
    cases htq : t ++ qs with
    | nil => exact absurd (List.append_eq_nil.mp htq).2 hqs
    | cons a l =>
      rw [renderPs_cons_cons, ← htq]
      rw [ih qs hqs]
      simp [List.append_assoc]

theorem mem_concatPairs {c : Char} : ∀ {ps : List (Str × Str)},
    c ∈ concatPairs ps → ∃ p ∈ ps, c ∈ p.1 ∨ c ∈ p.2 := by
  intro ps hc
  unfold concatPairs at hc
  obtain ⟨l, hl, hcl⟩ := List.mem_flatten.mp hc
  obtain ⟨p, hp, hpl⟩ := List.mem_map.mp hl
  subst hpl
  rcases List.mem_append.mp hcl with h | h
  · exact ⟨p, hp, Or.inl h⟩
  · exact ⟨p, hp, Or.inr h⟩

theorem processPage_ne_nil (nfkd : Str → Str) (n : Nat) (b : PageBehavior) :
    processPage nfkd n b ≠ [] := by
  unfold processPage pageContentElems
  intro h
  rw [pyJoin_cons_cons] at h
  have h2 := (List.append_eq_nil.mp ((List.append_eq_nil.mp h).1)).1
  exact absurd (List.append_eq_nil.mp h2).1 (by simp [nlStr])

theorem natStr_word_facts (n : Nat) : (natStr n ≠ [])
    ∧ (∀ c ∈ natStr n, isWs c = false)
    ∧ (∀ c ∈ natStr n, tameChar c = true) :=
  ⟨natStr_ne_nil n, fun c hc => digit_not_ws (natStr_digits n c hc),
   fun c hc => digit_tame (natStr_digits n c hc)⟩

theorem natStrEq_word_facts (n : Nat) : (natStr n ++ str "==" ≠ [])
    ∧ (∀ c ∈ natStr n ++ str "==", isWs c = false)
    ∧ (∀ c ∈ natStr n ++ str "==", tameChar c = true) := by
  refine ⟨?_, ?_, ?_⟩
  · intro h
    exact natStr_ne_nil n (List.append_eq_nil.mp h).1
  · intro c hc
    rcases List.mem_append.mp hc with h | h
    · exact digit_not_ws (natStr_digits n c h)
    · have h2 : ∀ d ∈ str "==", isWs d = false := by decide
      exact h2 c h
  · intro c hc
    rcases List.mem_append.mp hc with h | h
    · exact digit_tame (natStr_digits n c h)
    · have h2 : ∀ d ∈ str "==", tameChar d = true := by decide
      exact h2 c h

theorem pagePairsT_wf (n : Nat) : ∀ p ∈ pagePairsT n,
    p.1 ≠ [] ∧ (∀ c ∈ p.1, isWs c = false) ∧ (∀ c ∈ p.2, isWs c = true)
      ∧ (∀ c ∈ p.1, tameChar c = true) ∧ (∀ c ∈ p.2, tameChar c = true) := by
  intro p hp
  simp only [pagePairsT, List.mem_cons, List.not_mem_nil, or_false] at hp
  rcases hp with h|h|h|h|h|h|h|h|h|h|h|h|h|h|h|h|h|h|h|h|h|h <;> subst h <;>
    dsimp only <;>
    first
    | exact (by decide)
    | exact ⟨(natStr_word_facts n).1, (natStr_word_facts n).2.1, by decide,
        (natStr_word_facts n).2.2, by decide⟩
    | exact ⟨(natStrEq_word_facts n).1, (natStrEq_word_facts n).2.1,
        by decide, (natStrEq_word_facts n).2.2, by decide⟩

theorem psTimeout_wf (N : Nat) : ∀ p ∈ psTimeout N,
    p.1 ≠ [] ∧ (∀ c ∈ p.1, isWs c = false) ∧ (∀ c ∈ p.2, isWs c = true)
      ∧ (∀ c ∈ p.1, tameChar c = true) ∧ (∀ c ∈ p.2, tameChar c = true) := by
  intro p hp
  unfold psTimeout at hp
  rcases List.mem_append.mp hp with h | h
  · have hh : ∀ q ∈ hdrPairsT, q.1 ≠ [] ∧ (∀ c ∈ q.1, isWs c = false)
        ∧ (∀ c ∈ q.2, isWs c = true) ∧ (∀ c ∈ q.1, tameChar c = true)
        ∧ (∀ c ∈ q.2, tameChar c = true) := by decide
    exact hh p h
  · obtain ⟨i, _, hi⟩ := List.mem_flatMap.mp h
    exact pagePairsT_wf (i + 1) p hi

theorem psTimeout_getLast (N : Nat) :
    ∃ w, (psTimeout N).getLast? = some (w, str "\n\n") := by
  cases N with
  | zero =>
    refine ⟨sep60, ?_⟩
    unfold psTimeout
    simp only [List.range_zero, List.flatMap_nil, List.append_nil]
    rfl
  | succ M =>
    unfold psTimeout
    rw [List.range_succ, List.flatMap_append]
    refine ⟨natStr (M + 1) ++ str "==", ?_⟩
    rw [← List.append_assoc]
    rw [List.getLast?_append_of_ne_nil _
      (show [M].flatMap (fun i => pagePairsT (i + 1)) ≠ [] from by
        simp [pagePairsT])]
    rw [show [M].flatMap (fun i => pagePairsT (i + 1)) = pagePairsT (M + 1)
      from by simp]
    rfl

theorem render_pagePairsT (n : Nat) :
    ((pagePairsT n).map (fun p => p.1 ++ sepFn p.2)).flatten
      = pageOutT n := by
  simp only [pagePairsT, pageOutT, List.map_cons, List.map_nil,
    List.flatten_cons, List.flatten_nil,
    show sepFn (str " ") = str " " from by decide,
    show sepFn (str "\n") = str "\n" from by decide,
    show sepFn (str "\n\n") = [] from by decide,
    List.append_nil, List.append_assoc]
  rfl

theorem renderPs_last_pagePairsT (n : Nat) :
    renderPs sepFn (pagePairsT n) = pageOutT n := by
  simp only [pagePairsT, pageOutT, renderPs,
    show sepFn (str " ") = str " " from by decide,
    show sepFn (str "\n") = str "\n" from by decide,
    show sepFn (str "\n\n") = [] from by decide,
    List.append_nil, List.append_assoc]
  rfl

theorem renderPs_pages : ∀ (m n : Nat), 0 < m →
    renderPs sepFn ((List.range m).flatMap (fun i => pagePairsT (n + i)))
      = outT n m := by
  intro m
  induction m with
  | zero => intro n h; omega
  | succ m2 ih =>
    intro n _
    rw [List.range_succ_eq_map]
    rw [List.flatMap_cons]
    rw [List.flatMap_map]
    rw [show ((List.range m2).flatMap fun a => pagePairsT (n + Nat.succ a))
        = (List.range m2).flatMap (fun i => pagePairsT (n + 1 + i)) from
      List.flatMap_congr (fun i _ => by
        rw [show n + Nat.succ i = n + 1 + i from by omega])]
    rw [Nat.add_zero]
    rw [show outT n (m2 + 1) = pageOutT n ++ outT (n + 1) m2 from rfl]
    cases hm2 : m2 with
    | zero =>
      simp only [List.range_zero, List.flatMap_nil, List.append_nil]
      rw [renderPs_last_pagePairsT]
      rw [show outT (n + 1) 0 = [] from rfl, List.append_nil]
    | succ m3 =>
      rw [renderPs_append sepFn _ _ (by
        rw [List.range_succ_eq_map, List.flatMap_cons]
        intro hcon
        have := (List.append_eq_nil.mp hcon).1
        rw [show pagePairsT (n + 1 + 0) = pagePairsT (n + 1) from by
          rw [Nat.add_zero]] at this
        simp [pagePairsT] at this)]
      rw [render_pagePairsT]
      rw [← hm2, ih (n + 1) (by omega)]

theorem renderPs_psTimeout (N : Nat) :
    renderPs sepFn (psTimeout N)
      = sep60 ++ (str "\nDOCUMENT CONTENT EXTRACTION\n"
          ++ (sep60 ++ outT 1 N)) := by
  cases N with
  | zero =>
    rw [show outT 1 0 = [] from rfl, List.append_nil]
    unfold psTimeout
    simp only [List.range_zero, List.flatMap_nil, List.append_nil]
    decide
  | succ M =>
    unfold psTimeout
    rw [renderPs_append sepFn _ _ (by
      rw [List.range_succ_eq_map, List.flatMap_cons]
      intro hcon
      have h1 := (List.append_eq_nil.mp hcon).1
      simp [pagePairsT] at h1)]
    rw [show (List.range (M + 1)).flatMap (fun i => pagePairsT (i + 1))
        = (List.range (M + 1)).flatMap (fun i => pagePairsT (1 + i)) from
      List.flatMap_congr (fun i _ => by rw [Nat.add_comm])]
    rw [renderPs_pages (M + 1) 1 (by omega)]
    rw [show (hdrPairsT.map (fun p => p.1 ++ sepFn p.2)).flatten
        = sep60 ++ (str "\nDOCUMENT CONTENT EXTRACTION\n" ++ sep60)
      from by decide]
    simp [List.append_assoc]

theorem extract_timeout (nfkd : Str → Str) (N : Nat)
    (hn : nfkd (assembledDoc nfkd (List.replicate N pageTimeout))
      = assembledDoc nfkd (List.replicate N pageTimeout)) :
    extract_text_from_pdf nfkd
        (DocBehavior.opened (List.replicate N pageTimeout))
      = sep60 ++ (str "\nDOCUMENT CONTENT EXTRACTION\n"
          ++ (sep60 ++ outT 1 N)) := by
  have hasm : concatPairs (setLastRun (psTimeout N))
      = assembledDoc nfkd (List.replicate N pageTimeout) := by
    obtain ⟨w, hw⟩ := psTimeout_getLast N
    have h1 := setLastRun_concat (psTimeout N) w (str "\n\n") hw
    have h2 := concat_psTimeout nfkd N
    rw [h1] at h2
    exact List.append_inj_left' h2 rfl
  have hwfS : ∀ p ∈ setLastRun (psTimeout N),
      p.1 ≠ [] ∧ (∀ c ∈ p.1, isWs c = false)
        ∧ (∀ c ∈ p.2, isWs c = true) := by
    intro p hp
    obtain ⟨q, hq, he1, he2⟩ := mem_setLastRun _ p hp
    have hw := psTimeout_wf N q hq
    refine ⟨by rw [he1]; exact hw.1, by rw [he1]; exact hw.2.1, ?_⟩
    rcases he2 with h | h
    · rw [h]; intro c hc; cases hc
    · rw [h]; exact hw.2.2.1
  have htame : ∀ c ∈ assembledDoc nfkd (List.replicate N pageTimeout),
      tameChar c = true := by
    intro c hc
    rw [← hasm] at hc
    obtain ⟨p, hp, hcp⟩ := mem_concatPairs hc
    obtain ⟨q, hq, he1, he2⟩ := mem_setLastRun _ p hp
    have hw := psTimeout_wf N q hq
    rcases hcp with h | h
    · rw [he1] at h
      exact hw.2.2.2.1 c h
    · rcases he2 with h2 | h2
      · rw [h2] at h; cases h
      · rw [h2] at h
        exact hw.2.2.2.2 c h
  have hpost : postprocess (assembledDoc nfkd (List.replicate N pageTimeout))
      = sep60 ++ (str "\nDOCUMENT CONTENT EXTRACTION\n"
          ++ (sep60 ++ outT 1 N)) := by
    rw [← hasm]
    rw [show concatPairs (setLastRun (psTimeout N))
        = [] ++ concatPairs (setLastRun (psTimeout N)) from rfl]
    rw [postprocess_decomp _ [] hwfS (by intro c hc; cases hc)]
    rw [renderPs_setLastRun]
    exact renderPs_psTimeout N
  obtain ⟨u, hu⟩ := assembledDoc_head nfkd (List.replicate N pageTimeout)
  show clean_text_for_api nfkd _ = _
  rw [clean_eq_of_not_empty _ _ (by rw [hu]; simp), hn,
    cleanAfterNFKD_eq_postprocess, tstages_tame htame]
  exact hpost

/-- **C7 (amended).**  For a document whose `N` pages all recover no text
(the digital step returns `None` and each OCR attempt times out), the
Document Result contains exactly `N` page-boundary markers, with indices
`1`, `2`, …, `N` in ascending order; and every page — for any behaviour
whatsoever — contributes a non-empty Page Result.  (The counterexample
theorem shows the exact count does not survive pages whose recovered text
itself contains marker-like content, so the count invariant is stated for
documents whose pages recover nothing.) -/
theorem page_count_amended (nfkd : Str → Str) (N : Nat)
    (hn : nfkd (assembledDoc nfkd (List.replicate N pageTimeout))
      = assembledDoc nfkd (List.replicate N pageTimeout)) :
    markerSeq (extract_text_from_pdf nfkd
        (DocBehavior.opened (List.replicate N pageTimeout)))
      = (List.range N).map (fun i => natStr (i + 1))
      ∧ ∀ (n : Nat) (b : PageBehavior), processPage nfkd n b ≠ [] := by
  constructor
  · rw [extract_timeout nfkd N hn]
    rw [show sep60 ++ (str "\nDOCUMENT CONTENT EXTRACTION\n"
          ++ (sep60 ++ outT 1 N))
        = List.replicate 60 '=' ++ (str "\nDOCUMENT CONTENT EXTRACTION\n"
          ++ (List.replicate 60 '=' ++ outT 1 N)) from rfl]
    rw [markerSeq_eqrun 60 _ (by
      intro x hx
      rw [show (str "\nDOCUMENT CONTENT EXTRACTION\n"
        ++ (List.replicate 60 '=' ++ outT 1 N)).head? = some '\n'
        from rfl] at hx
      injection hx with hx
      subst hx
      decide)]
    rw [if_neg (by
      intro h
      have h2 := h.2
      rw [show (str "\nPAGE ").isPrefixOf
        (str "\nDOCUMENT CONTENT EXTRACTION\n"
          ++ (List.replicate 60 '=' ++ outT 1 N)) = false from rfl] at h2
      cases h2)]
    rw [List.nil_append]
    rw [markerSeq_word (str "\nDOCUMENT CONTENT EXTRACTION\n") (by decide)]
    rw [markerSeq_outT N 1 60]
    apply List.map_congr_left
    intro i _
    rw [Nat.add_comm]
  · exact fun n b => processPage_ne_nil nfkd n b

/-- Witness for the amended C7: a two-page document of all-failing pages
yields exactly the markers `PAGE 1` and `PAGE 2`, in ascending order, and
every page contributes a non-empty Page Result. -/
theorem page_count_amended_witness :
    markerSeq (extract_text_from_pdf (fun t => t)
        (DocBehavior.opened (List.replicate 2 pageTimeout)))
      = (List.range 2).map (fun i => natStr (i + 1))
      ∧ ∀ (n : Nat) (b : PageBehavior),
          processPage (fun t => t) n b ≠ [] :=
  page_count_amended (fun t => t) 2 rfl

set_option maxRecDepth 16000 in
/-- **C7 is refuted as stated**: a one-page document whose digital text
itself contains a separator line followed by `"\nPAGE 9"` produces a
Document Result with two page-boundary markers (`1` and the injected `9`),
not exactly one. -/
theorem page_count_counterexample :
    markerSeq (extract_text_from_pdf (fun t => t)
        (DocBehavior.opened
          [⟨DigitalOutcome.ok (some (List.replicate 51 'x' ++ str "\n"
              ++ sep50 ++ str "\nPAGE 9")),
            TableOutcome.ok [], OcrOutcome.timeout⟩]))
      ≠ (List.range 1).map (fun i => natStr (i + 1)) := by
  decide
